import Mathlib

/-!
Verification of the BSW CP-ABE core of the `rabe` repository
(`src/schemes/bsw/mod.rs` and `src/utils/secretsharing/mod.rs`).

The bilinear pairing library (`bn`) is an external collaborator; following the
specification's algebra section it is embedded by the exponent model of the
generic cyclic bilinear group: an element of `G1` (resp. `G2`, `Gt`) is
represented by its scalar exponent with respect to a fixed generator (resp.
generator, and the pairing of the two generators), so that scalar
multiplication in `G1`/`G2` and `Gt`-exponentiation become multiplication in
the scalar field `F`, the group operation of `Gt` becomes addition, `Gt::one`
becomes `0`, `Gt` inversion becomes negation, and `pairing x y = x * y`.
Rust panics (`unwrap` on `None`, failing array indexing) are modelled by
`Except Unit`, with `.error ()` standing for a panic; a Rust function that
returns `Option<T>` and may also panic is embedded with result type
`Except Unit (Option T)`.
-/

set_option maxHeartbeats 1000000

/-- The policy-tree shape consumed by the secret-sharing engine.  The source
walks untyped `serde_json::Value` trees; `att`/`andNode`/`orNode` embed the
three recognised object shapes `{"ATT": string}`, `{"AND": [...]}`,
`{"OR": [...]}`; `attBad` embeds an object whose `"ATT"` key holds a non-null
value that is not a string (and which carries no `"AND"`/`"OR"` array, so that
every traversal takes its `ATT` branch and `as_str()` fails there); `other`
stands for any JSON value carrying none of the three keys (including
`null`). -/
inductive Policy where
  | att : String → Policy
  | attBad : Policy
  | andNode : List Policy → Policy
  | orNode : List Policy → Policy
  | other : Policy

section SecretSharing

variable {F : Type} [Field F] [DecidableEq F]

/-- From `utils/secretsharing/mod.rs`, `polynomial`: evaluates the polynomial
with coefficient vector `coeff` at `x` by summing `coeff[i] * x.pow(i)`.  The
source raises `x` to `usize_to_fr(_i)`; since a `usize` is below `2^64`, far
below the order of `Fr`, the representative of that exponent is exactly `i`,
so a natural-number exponent is the faithful embedding. -/
def polynomial (coeff : List F) (x : F) : F :=
  ((List.range coeff.length).map (fun i => coeff.getD i 0 * x ^ i)).sum

/-- From `utils/secretsharing/mod.rs`, `gen_shares`: for `k ≤ n`, builds the
coefficient vector `a` (the secret followed by `k - 1` sampled scalars, here
supplied by the tape `rnd`) and returns the `n + 1` evaluations
`p(0), p(1), …, p(n)`; for `k > n` it returns the empty list. -/
def gen_shares (secret : F) (k n : Nat) (rnd : Nat → F) : List F :=
  if k ≤ n then
    let a : List F := (List.range k).map (fun j => if j = 0 then secret else rnd j)
    (List.range (n + 1)).map (fun i => polynomial a ((i : Nat) : F))
  else []

/-- From `utils/secretsharing/mod.rs`, `recover_coefficients`: for each `i` in
the list, the product over all `j` in the list with `i ≠ j` of
`(0 - j) * (i - j)⁻¹`.  The source inverts with `.inverse().unwrap()`; in every
reachable call the points are pairwise distinct field elements, so the field
inverse used here agrees with it. -/
def recover_coefficients (l : List F) : List F :=
  l.map (fun i => l.foldl (fun acc j => if i ≠ j then acc * ((0 - j) * (i - j)⁻¹) else acc) 1)

mutual

/-- From `utils/secretsharing/mod.rs`, `gen_shares_json`: distributes `secret`
down the policy tree, with threshold `k = 1` at `OR` nodes and `k = n` at `AND`
nodes; child `i` (0-based) receives `shares[i + 1]`.  An `ATT` node whose value
is not a string fails with `None` (the `as_str()` match arm at
`mod.rs:200-204`); a node of any other shape contributes no shares and succeeds
with the empty list, exactly as the source (which falls through its `if` chain
and runs the child loop zero times).  The random scalars drawn at the node with
position `path` are `rnd path 1, …`. -/
def gen_shares_json (secret : F) (rnd : List Nat → Nat → F) (path : List Nat) :
    Policy → Option (List (String × F))
  | .att s => some [(s, secret)]
  | .attBad => none
  | .orNode cs =>
      genSharesChildren rnd path 0 (gen_shares secret 1 cs.length (rnd path)) cs
  | .andNode cs =>
      genSharesChildren rnd path 0 (gen_shares secret cs.length cs.length (rnd path)) cs
  | .other => some []

/-- The child loop of `gen_shares_json`: child number `i` receives share
`shares[i + 1]` and the results are concatenated; the first failing child
aborts.  `shares.getD (i + 1) 0` embeds the indexing `shares[_count + 1]`,
which is in bounds in every reachable call. -/
def genSharesChildren (rnd : List Nat → Nat → F) (path : List Nat) (i : Nat)
    (shares : List F) : List Policy → Option (List (String × F))
  | [] => some []
  | c :: rest =>
      match gen_shares_json (shares.getD (i + 1) 0) rnd (path ++ [i]) c with
      | none => none
      | some items =>
          match genSharesChildren rnd path (i + 1) shares rest with
          | none => none
          | some more => some (items ++ more)

end

/-- The list of evaluation points built by the `AND` branch of
`calc_coefficients`: the vector starts as `[1]` and one further point
`prev + 1` is pushed for each child beyond the first, giving
`[1, 2, …, max n 1]`. -/
def andPoints (n : Nat) : List F :=
  (List.range (max n 1)).map (fun i => ((i + 1 : Nat) : F))

mutual

/-- From `utils/secretsharing/mod.rs`, `calc_coefficients`: emits
`(name, coeff)` at a leaf; at an `AND` node of `n` children, child `i` is
recursed into with the running coefficient multiplied by
`recover_coefficients [1, …, n] [i]`; at an `OR` node every child gets the
running coefficient multiplied by `recover_coefficients [1] [0]`; an `ATT` node
whose value is not a string yields `none` (`mod.rs:119-123`), as does any other
shape. -/
def calc_coefficients (j : Policy) (coeff : F) : Option (List (String × F)) :=
  match j with
  | .att s => some [(s, coeff)]
  | .attBad => none
  | .andNode cs =>
      calcCoeffChildren coeff (recover_coefficients (andPoints cs.length)) cs
  | .orNode cs =>
      calcCoeffChildren coeff
        (List.replicate cs.length ((recover_coefficients ([1] : List F)).getD 0 0)) cs
  | .other => none

/-- The child loop of `calc_coefficients`: child `i` is processed with running
coefficient `coeff * lams[i]` and the results are concatenated.  Exhausting
`lams` with children left embeds the out-of-bounds indexing panic; it is
unreachable because the multiplier list always has at least as many entries as
there are children. -/
def calcCoeffChildren (coeff : F) (lams : List F) :
    List Policy → Option (List (String × F))
  | [] => some []
  | c :: rest =>
      match lams with
      | [] => none
      | lam :: lams' =>
          match calc_coefficients c (coeff * lam) with
          | none => none
          | some r =>
              match calcCoeffChildren coeff lams' rest with
              | none => none
              | some rs => some (r ++ rs)

end

mutual

/-- From `utils/secretsharing/mod.rs`, `required_attributes` (the pruning
pass): at a leaf, satisfied iff the name is among `attr`; an `OR` node needs at
least two children and short-circuits at the first satisfied child; an `AND`
node needs at least two children, visits them all, and clears the selected
list when unsatisfied; an `ATT` node whose value is not a string yields `none`
(the `as_str()` match arm at `mod.rs:87-90`), as does any other shape (the
`null` check included).  The source unwraps the recursive results, so a child
returning `None` is a panic (`.error ()`). -/
def required_attributes (attr : List String) :
    Policy → Except Unit (Option (Bool × List String))
  | .orNode cs =>
      if 2 ≤ cs.length then
        match orLoop attr cs with
        | .error e => .error e
        | .ok r => .ok (some r)
      else .ok none
  | .andNode cs =>
      if 2 ≤ cs.length then
        match andLoop attr true [] cs with
        | .error e => .error e
        | .ok (m, l) => .ok (some (m, if m then l else []))
      else .ok none
  | .att s => .ok (some (if attr.contains s then (true, [s]) else (false, [])))
  | .attBad => .ok none
  | .other => .ok none

/-- The `OR` loop of `required_attributes`: stops at the first child reporting
satisfied and returns its selected leaves; reports unsatisfied with an empty
list when no child matches. -/
def orLoop (attr : List String) : List Policy → Except Unit (Bool × List String)
  | [] => .ok (false, [])
  | c :: rest =>
      match required_attributes attr c with
      | .error e => .error e
      | .ok none => .error ()
      | .ok (some (found, l)) =>
          if found then .ok (true, l) else orLoop attr rest

/-- The `AND` loop of `required_attributes`: conjoins the children's verdicts
and appends a child's selected leaves only while the running verdict is still
positive. -/
def andLoop (attr : List String) (m : Bool) (acc : List String) :
    List Policy → Except Unit (Bool × List String)
  | [] => .ok (m, acc)
  | c :: rest =>
      match required_attributes attr c with
      | .error e => .error e
      | .ok none => .error ()
      | .ok (some (found, l)) =>
          andLoop attr (m && found) (if m && found then acc ++ l else acc) rest

end

mutual

/-- Modelled from the spec: `traverse_str` lives in `utils/tools`, which is not
among the sources; per the specification it decides whether an attribute set
makes the policy "evaluate to true under the usual boolean semantics" (`OR` is
disjunction, `AND` conjunction, a leaf is membership, byte-exact name
comparison); an unrecognised shape satisfies nothing. -/
def satisfies (attr : List String) : Policy → Bool
  | .att s => attr.contains s
  | .attBad => false
  | .orNode cs => satisfiesAny attr cs
  | .andNode cs => satisfiesAll attr cs
  | .other => false

/-- Disjunction of `satisfies` over a list of children. -/
def satisfiesAny (attr : List String) : List Policy → Bool
  | [] => false
  | c :: rest => satisfies attr c || satisfiesAny attr rest

/-- Conjunction of `satisfies` over a list of children. -/
def satisfiesAll (attr : List String) : List Policy → Bool
  | [] => true
  | c :: rest => satisfies attr c && satisfiesAll attr rest

end

mutual

/-- The attribute names at the leaves of a policy, in depth-first order — the
order in which both `gen_shares_json` and `calc_coefficients` emit their
entries. -/
def leafNames : Policy → List String
  | .att s => [s]
  | .attBad => []
  | .orNode cs => leafNamesList cs
  | .andNode cs => leafNamesList cs
  | .other => []

/-- Concatenation of `leafNames` over a list of children. -/
def leafNamesList : List Policy → List String
  | [] => []
  | c :: rest => leafNames c ++ leafNamesList rest

end

mutual

/-- Structural well-formedness per the spec: every node is a leaf or an
`AND`/`OR` with at least two children. -/
def wellFormed : Policy → Bool
  | .att _ => true
  | .attBad => false
  | .orNode cs => decide (2 ≤ cs.length) && wellFormedList cs
  | .andNode cs => decide (2 ≤ cs.length) && wellFormedList cs
  | .other => false

/-- Conjunction of `wellFormed` over a list of children. -/
def wellFormedList : List Policy → Bool
  | [] => true
  | c :: rest => wellFormed c && wellFormedList rest

end

mutual

/-- The largest number of children of any inner node of the policy; the
evaluation points used by the sharing engine all lie in `1, …, arityBound`. -/
def arityBound : Policy → Nat
  | .att _ => 0
  | .attBad => 0
  | .orNode cs => max cs.length (arityBoundList cs)
  | .andNode cs => max cs.length (arityBoundList cs)
  | .other => 0

/-- Maximum of `arityBound` over a list of children. -/
def arityBoundList : List Policy → Nat
  | [] => 0
  | c :: rest => max (arityBound c) (arityBoundList rest)

end

mutual

/-- Holds when no node of the tree is an `ATT` node with a non-string value —
the single shape on which `gen_shares_json` fails. -/
def goodAtts : Policy → Bool
  | .att _ => true
  | .attBad => false
  | .orNode cs => goodAttsList cs
  | .andNode cs => goodAttsList cs
  | .other => true

/-- Conjunction of `goodAtts` over a list of children. -/
def goodAttsList : List Policy → Bool
  | [] => true
  | c :: rest => goodAtts c && goodAttsList rest

end

/-- From `utils/secretsharing/mod.rs`, `calc_pruned_str`: parses the policy
string and prunes; a parse failure is the graceful `None`.  `string_to_json`
lives in `utils/tools`, not among the sources, so the parser is an explicit
parameter (modelled from the spec's `parse_policy(text) → Option<PolicyTree>`). -/
def calc_pruned_str (parse : String → Option Policy) (attr : List String)
    (policy : String) : Except Unit (Option (Bool × List String)) :=
  match parse policy with
  | none => .ok none
  | some j => required_attributes attr j

/-- From `utils/secretsharing/mod.rs`, `calc_coefficients_str`: parse, then
compute coefficients with running coefficient `Fr::one()`. -/
def calc_coefficients_str (parse : String → Option Policy) (policy : String) :
    Option (List (String × F)) :=
  match parse policy with
  | none => none
  | some j => calc_coefficients j 1

/-- From `utils/secretsharing/mod.rs`, `gen_shares_str`: parse, then share the
secret down the tree. -/
def gen_shares_str (parse : String → Option Policy) (secret : F)
    (policy : String) (rnd : List Nat → Nat → F) : Option (List (String × F)) :=
  match parse policy with
  | none => none
  | some j => gen_shares_json secret rnd [] j

end SecretSharing

section Bsw

variable {F : Type} [Field F] [DecidableEq F]

/-- A BSW public key, exponent model of `CpAbePublicKey`. -/
structure CpAbePublicKey (F : Type) where
  g1 : F
  g2 : F
  h : F
  f : F
  e_gg_alpha : F
deriving DecidableEq

/-- A BSW master key, exponent model of `CpAbeMasterKey`. -/
structure CpAbeMasterKey (F : Type) where
  beta : F
  g2_alpha : F
deriving DecidableEq

/-- A BSW attribute component, exponent model of `CpAbeAttribute`. -/
structure CpAbeAttribute (F : Type) where
  str : String
  g1 : F
  g2 : F
deriving DecidableEq

/-- A BSW secret user key, exponent model of `CpAbeSecretKey`. -/
structure CpAbeSecretKey (F : Type) where
  d : F
  d_j : List (CpAbeAttribute F)
deriving DecidableEq

/-- Modelled from the spec: the bulk ciphertext produced by the symmetric
envelope (`utils/aes`, not among the sources) — an authenticated blob that can
be opened exactly under the `Gt` element it was sealed with. -/
structure SymCiphertext (F : Type) where
  key : F
  data : List Nat
deriving DecidableEq

/-- A BSW ciphertext, exponent model of `CpAbeCiphertext`. -/
structure CpAbeCiphertext (F : Type) where
  policy : String
  c : F
  c_p : F
  c_y : List (CpAbeAttribute F)
  ct : SymCiphertext F
deriving DecidableEq

/-- Model of `bn::Fr::inverse`, which returns `None` exactly on zero. -/
def frInverse (x : F) : Option F :=
  if x = 0 then none else some x⁻¹

/-- Modelled from the spec: `encrypt_symmetric` (`utils/aes`, not among the
sources) seals the payload under a key derived from the `Gt` element; sealing
always succeeds. -/
def encrypt_symmetric (msg : F) (plaintext : List Nat) : Option (SymCiphertext F) :=
  some ⟨msg, plaintext⟩

/-- Modelled from the spec: `decrypt_symmetric` (`utils/aes`, not among the
sources) opens the authenticated blob, succeeding exactly when the derived key
matches the one it was sealed under. -/
def decrypt_symmetric (msg : F) (ct : SymCiphertext F) : Option (List Nat) :=
  if ct.key = msg then some ct.data else none

/-- Modelled from the spec: `is_subset` (`utils/tools`, not among the sources)
decides whether every element of `subset` occurs in `attr`. -/
def is_subset (subset attr : List String) : Bool :=
  subset.all (fun a => attr.contains a)

/-- From `src/schemes/bsw/mod.rs`, `setup`, with the sampled generators `g`,
`gp` and scalars `beta`, `alpha` as explicit inputs.  The source computes
`_beta.inverse().unwrap()`, so a zero `beta` is a panic, embedded as `none`. -/
def setup (g gp beta alpha : F) :
    Option (CpAbePublicKey F × CpAbeMasterKey F) :=
  match frInverse beta with
  | none => none
  | some bi =>
      some ({ g1 := g, g2 := gp, h := g * beta, f := gp * bi,
              e_gg_alpha := g * (gp * alpha) },
            { beta := beta, g2_alpha := gp * alpha })

/-- From `src/schemes/bsw/mod.rs`, `keygen`, with the sampled scalar `r` and
the per-attribute tape `rj` (the scalar drawn for the attribute at position
`i` is `rj i`) as explicit inputs.  The hash `blake2b_hash_g2` lives in
`utils/hash`, not among the sources, and is the explicit parameter `hashG2`
(modelled from the spec's keyed hash-to-curve collaborator). -/
def keygen (hashG2 : F → String → F) (pk : CpAbePublicKey F)
    (msk : CpAbeMasterKey F) (attributes : List String) (r : F) (rj : Nat → F) :
    Except Unit (Option (CpAbeSecretKey F)) :=
  if attributes.isEmpty then .ok none
  else
    match frInverse msk.beta with
    | none => .error ()
    | some bi =>
        let g_r := pk.g2 * r
        .ok (some
          { d := (msk.g2_alpha + g_r) * bi,
            d_j := attributes.enum.map (fun p =>
              { str := p.2, g1 := pk.g1 * rj p.1,
                g2 := g_r + hashG2 pk.g2 p.2 * rj p.1 }) })

/-- The per-attribute loop of `delegate`: looks each delegated attribute up in
the source key (`find` followed by `unwrap`, a panic when absent — unreachable
behind the subset check) and re-randomises its components. -/
def delegateAttrs (hashG2 : F → String → F) (pk : CpAbePublicKey F)
    (sk : CpAbeSecretKey F) (r : F) (rj : Nat → F) :
    List (Nat × String) → Except Unit (List (CpAbeAttribute F))
  | [] => .ok []
  | p :: rest =>
      match sk.d_j.find? (fun x => x.str == p.2) with
      | none => .error ()
      | some dj =>
          match delegateAttrs hashG2 pk sk r rj rest with
          | .error e => .error e
          | .ok more =>
              .ok ({ str := p.2, g1 := dj.g1 + pk.g1 * rj p.1,
                     g2 := dj.g2 + hashG2 pk.g2 p.2 * rj p.1 + pk.g2 * r } :: more)

/-- From `src/schemes/bsw/mod.rs`, `delegate`, with the sampled scalars as
explicit inputs; rejects non-subsets, then empty subsets. -/
def delegate (hashG2 : F → String → F) (pk : CpAbePublicKey F)
    (sk : CpAbeSecretKey F) (subset : List String) (r : F) (rj : Nat → F) :
    Except Unit (Option (CpAbeSecretKey F)) :=
  if ¬ is_subset subset (sk.d_j.map (fun v => v.str)) = true then .ok none
  else if subset.isEmpty then .ok none
  else
    match delegateAttrs hashG2 pk sk r rj subset.enum with
    | .error e => .error e
    | .ok d_k => .ok (some { d := sk.d + pk.f * r, d_j := d_k })

/-- From `src/schemes/bsw/mod.rs`, `encrypt`, with the sampled scalars as
explicit inputs: `s` is the root secret, `mx`/`my` the exponents of the random
`G1`/`G2` points whose pairing is the session element, and `rnd` the tape for
the sharing polynomials.  The source unwraps `gen_shares_str`, so a failing
share generation is a panic. -/
def encrypt (parse : String → Option Policy) (hashG2 : F → String → F)
    (pk : CpAbePublicKey F) (policy : String) (plaintext : List Nat)
    (s mx my : F) (rnd : List Nat → Nat → F) :
    Except Unit (Option (CpAbeCiphertext F)) :=
  if plaintext.isEmpty || policy.isEmpty then .ok none
  else
    let msg := mx * my
    match gen_shares_str parse s policy rnd with
    | none => .error ()
    | some shares =>
        match encrypt_symmetric msg plaintext with
        | none => .error ()
        | some symct =>
            .ok (some
              { policy := policy, c := pk.h * s,
                c_p := pk.e_gg_alpha * s + msg,
                c_y := shares.map (fun jv =>
                  { str := jv.1, g1 := pk.g1 * jv.2,
                    g2 := hashG2 pk.g2 jv.1 * jv.2 }),
                ct := symct })

/-- Modelled from the spec: the decrypt pre-check `traverse_str`
(`utils/tools`, not among the sources) parses the policy and evaluates it as a
boolean formula over the key's attribute names; an unparseable policy is not
satisfied. -/
def traverse_str (parse : String → Option Policy) (attr : List String)
    (policy : String) : Bool :=
  match parse policy with
  | none => false
  | some j => satisfies attr j

/-- The inner loop of `decrypt` for one pruned name `j`: every coefficient
entry whose name equals `j` multiplies
`(pairing(C_j, D_j) * pairing(D'_j, C'_j)⁻¹) ^ λ` into the accumulator
(additively in the exponent model). -/
def decryptInner (cj dj : CpAbeAttribute F) (z : List (String × F)) (j : String) : F :=
  z.foldl (fun acc t =>
    if t.1 == j then acc + (cj.g1 * dj.g2 + -(dj.g1 * cj.g2)) * t.2 else acc) 0

/-- The outer loop of `decrypt`: for each pruned name, the first matching
ciphertext and key components are looked up (`find` + `unwrap`, a panic when
absent) and the inner loop's contribution is accumulated. -/
def decryptAcc (sk : CpAbeSecretKey F) (ct : CpAbeCiphertext F)
    (z : List (String × F)) : List String → Except Unit F
  | [] => .ok 0
  | j :: rest =>
      match ct.c_y.find? (fun x => x.str == j) with
      | none => .error ()
      | some cj =>
          match sk.d_j.find? (fun x => x.str == j) with
          | none => .error ()
          | some dj =>
              match decryptAcc sk ct z rest with
              | .error e => .error e
              | .ok a => .ok (decryptInner cj dj z j + a)

/-- From `src/schemes/bsw/mod.rs`, `decrypt`: pre-check with `traverse_str`,
prune, unwrap the coefficients (a panic when they fail), accumulate the
pairing products over the pruned names, recover the session element as
`C' * (pairing(C, D) * A⁻¹)⁻¹`, and open the symmetric envelope. -/
def decrypt (parse : String → Option Policy) (sk : CpAbeSecretKey F)
    (ct : CpAbeCiphertext F) : Except Unit (Option (List Nat)) :=
  let strAttr := sk.d_j.map (fun v => v.str)
  if traverse_str parse strAttr ct.policy = false then .ok none
  else
    match calc_pruned_str parse strAttr ct.policy with
    | .error e => .error e
    | .ok none => .ok none
    | .ok (some (false, _)) => .ok none
    | .ok (some (true, sel)) =>
        match calc_coefficients_str parse ct.policy with
        | none => .error ()
        | some z =>
            match decryptAcc sk ct z sel with
            | .error e => .error e
            | .ok a =>
                let msg := ct.c_p + -(ct.c * sk.d + -a)
                .ok (decrypt_symmetric msg ct.ct)

end Bsw

section ProofDefs

variable {F : Type} [Field F] [DecidableEq F]

/-- Auxiliary for the proofs: the Mathlib polynomial with coefficient list
`a`, in Horner form. -/
noncomputable def toPoly : List F → Polynomial F
  | [] => 0
  | c :: cs => Polynomial.C c + Polynomial.X * toPoly cs

/-- The standard Lagrange basis coefficient at `0` for 0-based child index
`i` over the full evaluation-point set `1, …, n`, as the spec writes it:
the product over `j ≠ i` of `(0 − x_j) / (x_i − x_j)` with `x_j = j + 1`. -/
def lagrangeBasisAtZero (n i : Nat) : F :=
  ∏ j in (Finset.range n).erase i,
    ((0 : F) - ((j + 1 : Nat) : F)) * (((i + 1 : Nat) : F) - ((j + 1 : Nat) : F))⁻¹

instance exceptDecidableEq {e a : Type} [DecidableEq e] [DecidableEq a] :
    DecidableEq (Except e a) := fun x y =>
  match x, y with
  | .error u, .error v =>
      if h : u = v then .isTrue (congrArg Except.error h)
      else .isFalse (fun hc => h (Except.error.inj hc))
  | .ok u, .ok v =>
      if h : u = v then .isTrue (congrArg Except.ok h)
      else .isFalse (fun hc => h (Except.ok.inj hc))
  | .error _, .ok _ => .isFalse (fun hc => Except.noConfusion hc)
  | .ok _, .error _ => .isFalse (fun hc => Except.noConfusion hc)

instance : Fact (Nat.Prime 5) := ⟨by norm_num⟩

instance : Fact (Nat.Prime 13) := ⟨by norm_num⟩

end ProofDefs

section BasicLemmas

variable {F : Type} [Field F] [DecidableEq F]

theorem polynomial_nil (x : F) : polynomial [] x = 0 := rfl

theorem polynomial_cons (c : F) (cs : List F) (x : F) :
    polynomial (c :: cs) x = c + x * polynomial cs x := by
  have h1 : polynomial (c :: cs) x =
      c + ((List.range cs.length).map (fun i => cs.getD i 0 * x ^ i * x)).sum := by
    unfold polynomial
    rw [List.length_cons, List.range_succ_eq_map, List.map_cons, List.map_map]
    simp only [List.sum_cons, List.getD_cons_zero, pow_zero, mul_one]
    refine congrArg (c + ·) (congrArg List.sum (List.map_congr_left (fun i _ => ?_)))
    simp [Function.comp, Nat.succ_eq_add_one, List.getD_cons_succ, pow_succ, mul_assoc]
  rw [h1, List.sum_map_mul_right]
  show c + polynomial cs x * x = c + x * polynomial cs x
  ring

theorem toPoly_eval (a : List F) (x : F) : (toPoly a).eval x = polynomial a x := by
  induction a with
  | nil => simp [toPoly, polynomial_nil]
  | cons c cs ih => simp [toPoly, polynomial_cons, ih]

theorem toPoly_coeff (a : List F) (i : Nat) : (toPoly a).coeff i = a.getD i 0 := by
  induction a generalizing i with
  | nil => simp [toPoly]
  | cons c cs ih =>
      cases i with
      | zero => simp [toPoly, Polynomial.mul_coeff_zero]
      | succ n => simp [toPoly, Polynomial.coeff_X_mul, ih]

theorem toPoly_degree_lt (a : List F) :
    (toPoly a).degree < ((a.length : Nat) : WithBot ℕ) := by
  refine (Polynomial.degree_lt_iff_coeff_zero _ _).mpr (fun m hm => ?_)
  rw [toPoly_coeff]
  exact List.getD_eq_default _ _ (by exact_mod_cast hm)

theorem mapped_range_getD (k i : Nat) (h : i < k) (f : Nat → F) :
    ((List.range k).map f).getD i 0 = f i := by
  rw [List.getD_eq_getElem?_getD]
  simp [List.getElem?_map, List.getElem?_range h]

end BasicLemmas

section SharingLemmas

variable {F : Type} [Field F] [DecidableEq F]

mutual

/-- On every tree free of non-string `ATT` values, `gen_shares_json` succeeds
and emits exactly one share per leaf, in depth-first order. -/
theorem gen_shares_json_total (secret : F) (rnd : List Nat → Nat → F)
    (path : List Nat) : (p : Policy) → goodAtts p = true →
    ∃ l, gen_shares_json secret rnd path p = some l ∧ l.map Prod.fst = leafNames p
  | .att s, _ => ⟨[(s, secret)], rfl, rfl⟩
  | .attBad, hg => by simp [goodAtts] at hg
  | .orNode cs, hg => by
      obtain ⟨l, hl, hn⟩ :=
        genSharesChildren_total rnd path 0 (gen_shares secret 1 cs.length (rnd path)) cs hg
      exact ⟨l, hl, hn⟩
  | .andNode cs, hg => by
      obtain ⟨l, hl, hn⟩ :=
        genSharesChildren_total rnd path 0
          (gen_shares secret cs.length cs.length (rnd path)) cs hg
      exact ⟨l, hl, hn⟩
  | .other, _ => ⟨[], rfl, rfl⟩

/-- The child loop of `gen_shares_json` succeeds on children free of
non-string `ATT` values and emits the concatenation of their leaf entries. -/
theorem genSharesChildren_total (rnd : List Nat → Nat → F) (path : List Nat)
    (i : Nat) (shares : List F) : (cs : List Policy) → goodAttsList cs = true →
    ∃ l, genSharesChildren rnd path i shares cs = some l ∧
      l.map Prod.fst = leafNamesList cs
  | [], _ => ⟨[], rfl, rfl⟩
  | c :: rest, hg => by
      simp only [goodAttsList, Bool.and_eq_true] at hg
      obtain ⟨l1, h1, hn1⟩ :=
        gen_shares_json_total (shares.getD (i + 1) 0) rnd (path ++ [i]) c hg.1
      obtain ⟨l2, h2, hn2⟩ := genSharesChildren_total rnd path (i + 1) shares rest hg.2
      refine ⟨l1 ++ l2, ?_, ?_⟩
      · simp only [genSharesChildren]
        rw [h1, h2]
      · simp [leafNamesList, hn1, hn2]

end

mutual

/-- A successful `gen_shares_json` run certifies that the tree has no `ATT`
node with a non-string value. -/
theorem gen_shares_json_good (secret : F) (rnd : List Nat → Nat → F)
    (path : List Nat) : (p : Policy) → (l : List (String × F)) →
    gen_shares_json secret rnd path p = some l → goodAtts p = true
  | .att _, _, _ => rfl
  | .attBad, _, h => by simp [gen_shares_json] at h
  | .orNode cs, l, h => genSharesChildren_good rnd path 0 _ cs l h
  | .andNode cs, l, h => genSharesChildren_good rnd path 0 _ cs l h
  | .other, _, _ => rfl

/-- Child-loop version of `gen_shares_json_good`. -/
theorem genSharesChildren_good (rnd : List Nat → Nat → F) (path : List Nat)
    (i : Nat) (shares : List F) : (cs : List Policy) → (l : List (String × F)) →
    genSharesChildren rnd path i shares cs = some l → goodAttsList cs = true
  | [], _, _ => rfl
  | c :: rest, l, h => by
      simp only [genSharesChildren] at h
      cases h1 : gen_shares_json (shares.getD (i + 1) 0) rnd (path ++ [i]) c with
      | none => rw [h1] at h; exact absurd h (by simp)
      | some items =>
          rw [h1] at h
          cases h2 : genSharesChildren rnd path (i + 1) shares rest with
          | none => rw [h2] at h; exact absurd h (by simp)
          | some more =>
              have hg1 := gen_shares_json_good _ rnd (path ++ [i]) c items h1
              have hg2 := genSharesChildren_good rnd path (i + 1) shares rest more h2
              simp [goodAttsList, hg1, hg2]

end

end SharingLemmas

section ClaimEasy

variable {F : Type} [Field F] [DecidableEq F]

/-- C5: the specification requires `setup` to reject and resample zero
scalars so that the inversion of `beta` never fails; the code does not
resample: a run that samples `beta = 0` makes `_beta.inverse().unwrap()`
panic (left conjunct), and a run that samples `alpha = 0` is accepted
unchanged (right conjunct), so the claimed rejection does not exist. -/
theorem setup_accepts_zero_scalars :
    setup (1 : ZMod 5) 1 0 1 = none ∧
    setup (1 : ZMod 5) 1 1 0 = some (⟨1, 1, 1, 1, 0⟩, ⟨1, 0⟩) := by
  constructor
  · decide
  · simp [setup, frInverse]

/-- C6: `encrypt` with a non-empty plaintext and non-empty policy string on
which share generation fails does not return the graceful `None`: the
`unwrap` of `gen_shares_str` panics, so the embedding yields `.error ()`. -/
theorem encrypt_panics_when_share_generation_fails
    (parse : String → Option Policy) (hashG2 : F → String → F)
    (pk : CpAbePublicKey F) (policy : String) (plaintext : List Nat)
    (s mx my : F) (rnd : List Nat → Nat → F)
    (hpt : plaintext.isEmpty = false) (hpol : policy.isEmpty = false)
    (hfail : gen_shares_str parse s policy rnd = none) :
    encrypt parse hashG2 pk policy plaintext s mx my rnd = .error () := by
  unfold encrypt
  rw [hpt, hpol, hfail]
  simp

/-- Witness for C6 at a concrete input: the policy string "x" does not parse. -/
theorem encrypt_panics_when_share_generation_fails_w :
    ([1] : List Nat).isEmpty = false ∧ ("x" : String).isEmpty = false ∧
    gen_shares_str (fun _ => none) (1 : ZMod 5) "x" (fun _ _ => 0) = none ∧
    encrypt (F := ZMod 5) (fun _ => none) (fun _ _ => 0) ⟨1, 1, 1, 1, 1⟩ "x" [1] 1 0 0
      (fun _ _ => 0) = .error () :=
  ⟨by decide, by decide, rfl,
    encrypt_panics_when_share_generation_fails (F := ZMod 5) _ _ _ _ _ _ _ _ _
      (by decide) (by decide) rfl⟩

/-- C4 counterexample: share generation does not reject malformed policies.
An `OR` node with a single child is processed (threshold `k = 1`) and
succeeds, and a node of unrecognised shape succeeds with no shares — neither
returns the `None` the claim demands of every policy-consuming operation. -/
theorem gen_shares_json_accepts_malformed :
    gen_shares_json (3 : ZMod 5) (fun _ _ => 0) [] (Policy.orNode [Policy.att "A"]) =
      some [("A", 3)] ∧
    gen_shares_json (3 : ZMod 5) (fun _ _ => 0) [] Policy.other = some [] := by
  constructor <;> decide

/-- C4 amended: the pruning pass rejects with `None` an `OR`/`AND` node with
fewer than two children, an `ATT` node whose value is not a string, and any
unrecognised shape; share generation rejects exactly the non-string `ATT`
values — `gen_shares_json` succeeds if and only if the tree has no such node,
so an inner node with fewer than two children is processed with its usual
threshold and an unrecognised shape contributes no shares. -/
theorem malformed_policy_rejection_characterisation :
    (∀ (attr : List String) (cs : List Policy), cs.length < 2 →
        required_attributes attr (Policy.orNode cs) = .ok none ∧
        required_attributes attr (Policy.andNode cs) = .ok none) ∧
    (∀ attr : List String, required_attributes attr Policy.other = .ok none ∧
        required_attributes attr Policy.attBad = .ok none) ∧
    (∀ (s : F) (rnd : List Nat → Nat → F) (path : List Nat) (p : Policy),
        (∃ l, gen_shares_json s rnd path p = some l) ↔ goodAtts p = true) := by
  refine ⟨fun attr cs h => ⟨?_, ?_⟩, fun attr => ⟨rfl, rfl⟩,
    fun s rnd path p => ⟨?_, ?_⟩⟩
  · unfold required_attributes
    rw [if_neg (by omega)]
  · unfold required_attributes
    rw [if_neg (by omega)]
  · rintro ⟨l, hl⟩
    exact gen_shares_json_good s rnd path p l hl
  · intro hg
    obtain ⟨l, hl, -⟩ := gen_shares_json_total s rnd path p hg
    exact ⟨l, hl⟩

/-- Witness for C4's amended statement at concrete inputs. -/
theorem malformed_policy_rejection_characterisation_w :
    ([Policy.att "A"].length < 2 ∧
      required_attributes ["B"] (Policy.orNode [Policy.att "A"]) = .ok none) ∧
    required_attributes ["B"] Policy.attBad = .ok none ∧
    (∃ l, gen_shares_json (3 : ZMod 5) (fun _ _ => 0) []
        (Policy.andNode [Policy.att "B"]) = some l) :=
  ⟨⟨by decide,
      ((malformed_policy_rejection_characterisation (F := ZMod 5)).1 ["B"]
        [Policy.att "A"] (by decide)).1⟩,
    ((malformed_policy_rejection_characterisation (F := ZMod 5)).2.1 ["B"]).2,
    ((malformed_policy_rejection_characterisation (F := ZMod 5)).2.2 3 (fun _ _ => 0) []
      (Policy.andNode [Policy.att "B"])).mpr (by decide)⟩

/-- C7 counterexample: at `k = 0 ≤ n = 0` the coefficient vector is empty, so
`gen_shares` returns `[0]` — position 0 holds `0`, not the secret `3` the
claim demands for every `k ≤ n`. -/
theorem gen_shares_zero_threshold_loses_secret :
    gen_shares (3 : ZMod 5) 0 0 (fun _ => 0) = [0] ∧ ((0 : ZMod 5) ≠ 3) := by
  constructor <;> decide

/-- C7 amended (`1 ≤ k` required): for `1 ≤ k ≤ n`, `gen_shares` returns the
`n + 1` evaluations at `0, 1, …, n` of the polynomial of degree below `k`
whose constant coefficient is the secret and whose remaining coefficients are
the sampled scalars; in particular position 0 holds the secret. -/
theorem gen_shares_are_polynomial_evaluations (s : F) (k n : Nat)
    (rnd : Nat → F) (hk : 0 < k) (hkn : k ≤ n) :
    ∃ p : Polynomial F, p.degree < ((k : Nat) : WithBot ℕ) ∧ p.coeff 0 = s ∧
      (∀ i : Nat, 0 < i → i < k → p.coeff i = rnd i) ∧
      gen_shares s k n rnd =
        (List.range (n + 1)).map (fun i => p.eval ((i : Nat) : F)) ∧
      (gen_shares s k n rnd).getD 0 0 = s := by
  have hc0 : (toPoly ((List.range k).map (fun j => if j = 0 then s else rnd j))).coeff 0
      = s := by
    rw [toPoly_coeff, mapped_range_getD k 0 hk]
    simp
  have heval : gen_shares s k n rnd = (List.range (n + 1)).map (fun i =>
      (toPoly ((List.range k).map (fun j => if j = 0 then s else rnd j))).eval
        ((i : Nat) : F)) := by
    unfold gen_shares
    rw [if_pos hkn]
    exact List.map_congr_left (fun i _ => (toPoly_eval _ _).symm)
  refine ⟨toPoly ((List.range k).map (fun j => if j = 0 then s else rnd j)),
    ?_, hc0, ?_, heval, ?_⟩
  · have := toPoly_degree_lt ((List.range k).map (fun j => if j = 0 then s else rnd j))
    simpa using this
  · intro i hi hik
    rw [toPoly_coeff, mapped_range_getD k i hik]
    simp [Nat.pos_iff_ne_zero.mp hi]
  · rw [heval, mapped_range_getD (n + 1) 0 (Nat.succ_pos n), Nat.cast_zero,
      ← Polynomial.coeff_zero_eq_eval_zero, hc0]

/-- Witness for C7's amended statement at a concrete input. -/
theorem gen_shares_are_polynomial_evaluations_w :
    0 < 1 ∧ 1 ≤ 2 ∧
    ∃ p : Polynomial (ZMod 5), p.degree < ((1 : Nat) : WithBot ℕ) ∧
      p.coeff 0 = 3 ∧ (∀ i : Nat, 0 < i → i < 1 → p.coeff i = 0) ∧
      gen_shares (3 : ZMod 5) 1 2 (fun _ => 0) =
        (List.range 3).map (fun i => p.eval ((i : Nat) : ZMod 5)) ∧
      (gen_shares (3 : ZMod 5) 1 2 (fun _ => 0)).getD 0 0 = 3 :=
  ⟨Nat.one_pos, by omega,
    gen_shares_are_polynomial_evaluations (3 : ZMod 5) 1 2 (fun _ => 0)
      Nat.one_pos (by omega)⟩

end ClaimEasy

section ClaimKeys

variable {F : Type} [Field F] [DecidableEq F]

/-- A successful `keygen` copies the input attribute list verbatim into the
key's attribute table. -/
theorem keygen_names (hashG2 : F → String → F) (pk : CpAbePublicKey F)
    (msk : CpAbeMasterKey F) (attrs : List String) (r : F) (rj : Nat → F)
    (sk : CpAbeSecretKey F) (h : keygen hashG2 pk msk attrs r rj = .ok (some sk)) :
    sk.d_j.map (fun v => v.str) = attrs := by
  unfold keygen at h
  split at h
  · exact absurd h (by simp)
  · split at h
    · exact absurd h (by simp)
    · simp only [Except.ok.injEq, Option.some.injEq] at h
      subst h
      rw [List.map_map]
      exact List.enum_map_snd attrs

/-- The attribute loop of `delegate` copies the delegated subset verbatim
into the new key's attribute table. -/
theorem delegateAttrs_names (hashG2 : F → String → F) (pk : CpAbePublicKey F)
    (sk : CpAbeSecretKey F) (r : F) (rj : Nat → F) (l : List (Nat × String))
    (out : List (CpAbeAttribute F))
    (h : delegateAttrs hashG2 pk sk r rj l = .ok out) :
    out.map (fun v => v.str) = l.map Prod.snd := by
  induction l generalizing out with
  | nil =>
      simp only [delegateAttrs, Except.ok.injEq] at h
      subst h
      simp
  | cons p rest ih =>
      unfold delegateAttrs at h
      split at h
      · exact absurd h (by simp)
      · split at h
        · exact absurd h (by simp)
        · rename_i more hmore
          simp only [Except.ok.injEq] at h
          subst h
          simp [ih more hmore]

/-- A successful `delegate` gives a key whose attribute table carries exactly
the delegated subset's names. -/
theorem delegate_names (hashG2 : F → String → F) (pk : CpAbePublicKey F)
    (sk0 : CpAbeSecretKey F) (subset : List String) (r : F) (rj : Nat → F)
    (sk : CpAbeSecretKey F)
    (h : delegate hashG2 pk sk0 subset r rj = .ok (some sk)) :
    sk.d_j.map (fun v => v.str) = subset := by
  unfold delegate at h
  split at h
  · exact absurd h (by simp)
  · split at h
    · exact absurd h (by simp)
    · split at h
      · exact absurd h (by simp)
      · rename_i d_k hd_k
        simp only [Except.ok.injEq, Option.some.injEq] at h
        subst h
        have := delegateAttrs_names hashG2 pk sk0 r rj subset.enum d_k hd_k
        simpa [List.enum_map_snd] using this

/-- C10 counterexample: `keygen` copies the input list verbatim, so a key
produced from the duplicated input `["A", "A"]` carries the duplicated name
twice — its attribute names are not pairwise distinct. -/
theorem keygen_emits_duplicate_names :
    keygen (fun _ _ => (1 : ZMod 5)) ⟨1, 1, 1, 1, 1⟩ ⟨1, 1⟩ ["A", "A"] 1 (fun _ => 1) =
      .ok (some ⟨2, [⟨"A", 1, 2⟩, ⟨"A", 1, 2⟩]⟩) ∧
    ¬ ((⟨2, [⟨"A", 1, 2⟩, ⟨"A", 1, 2⟩]⟩ : CpAbeSecretKey (ZMod 5)).d_j.map
        (fun v => v.str)).Nodup := by
  constructor
  · simp [keygen, frInverse, List.enum]
    norm_num
  · simp

/-- C10 amended (duplicate-free input required): the attribute names stored
by `keygen` (resp. `delegate`) are exactly the input attribute list (resp.
the delegated subset), so they are pairwise distinct whenever the input list
is. -/
theorem key_names_nodup_of_input_nodup (hashG2 : F → String → F) :
    (∀ (pk : CpAbePublicKey F) (msk : CpAbeMasterKey F) (attrs : List String)
        (r : F) (rj : Nat → F) (sk : CpAbeSecretKey F), attrs.Nodup →
        keygen hashG2 pk msk attrs r rj = .ok (some sk) →
        (sk.d_j.map (fun v => v.str)).Nodup) ∧
    (∀ (pk : CpAbePublicKey F) (sk0 : CpAbeSecretKey F) (subset : List String)
        (r : F) (rj : Nat → F) (sk : CpAbeSecretKey F), subset.Nodup →
        delegate hashG2 pk sk0 subset r rj = .ok (some sk) →
        (sk.d_j.map (fun v => v.str)).Nodup) := by
  constructor
  · intro pk msk attrs r rj sk hnd h
    rw [keygen_names hashG2 pk msk attrs r rj sk h]
    exact hnd
  · intro pk sk0 subset r rj sk hnd h
    rw [delegate_names hashG2 pk sk0 subset r rj sk h]
    exact hnd

/-- Witness for C10's amended statement at a concrete input. -/
theorem key_names_nodup_of_input_nodup_w :
    (["A", "B"] : List String).Nodup ∧
    keygen (fun _ _ => (1 : ZMod 5)) ⟨1, 1, 1, 1, 1⟩ ⟨1, 1⟩ ["A", "B"] 1 (fun _ => 1) =
      .ok (some ⟨2, [⟨"A", 1, 2⟩, ⟨"B", 1, 2⟩]⟩) ∧
    ((⟨2, [⟨"A", 1, 2⟩, ⟨"B", 1, 2⟩]⟩ : CpAbeSecretKey (ZMod 5)).d_j.map
        (fun v => v.str)).Nodup := by
  have hk : keygen (fun _ _ => (1 : ZMod 5)) ⟨1, 1, 1, 1, 1⟩ ⟨1, 1⟩ ["A", "B"] 1
      (fun _ => 1) = .ok (some ⟨2, [⟨"A", 1, 2⟩, ⟨"B", 1, 2⟩]⟩) := by
    simp [keygen, frInverse, List.enum]
    norm_num
  exact ⟨by decide, hk,
    (key_names_nodup_of_input_nodup (F := ZMod 5) (fun _ _ => 1)).1
      ⟨1, 1, 1, 1, 1⟩ ⟨1, 1⟩ ["A", "B"] 1 (fun _ => 1) _ (by decide) hk⟩

end ClaimKeys

section ClaimSoundness

variable {F : Type} [Field F] [DecidableEq F]

/-- C2: whenever the attribute names stored in the secret key do not satisfy
the ciphertext's policy, `decrypt` returns the graceful failure `None`; the
statement quantifies over every key carrying those names, so the rejection
depends on the attribute names alone — it is issued by the `traverse_str`
pre-check before any pairing value is consulted. -/
theorem decrypt_rejects_unsatisfying_names (parse : String → Option Policy)
    (P : Policy) (ct : CpAbeCiphertext F) (hp : parse ct.policy = some P)
    (names : List String) (hns : satisfies names P = false) :
    ∀ sk : CpAbeSecretKey F, sk.d_j.map (fun v => v.str) = names →
      decrypt parse sk ct = .ok none := by
  intro sk hsk
  unfold decrypt traverse_str
  rw [hsk, hp]
  simp [hns]

/-- Witness for C2 at a concrete input: a key named `["C"]` against the
policy `OR [A, B]`. -/
theorem decrypt_rejects_unsatisfying_names_w :
    (fun _ => some (Policy.orNode [Policy.att "A", Policy.att "B"]) :
        String → Option Policy) "p" =
      some (Policy.orNode [Policy.att "A", Policy.att "B"]) ∧
    satisfies ["C"] (Policy.orNode [Policy.att "A", Policy.att "B"]) = false ∧
    ((⟨0, [⟨"C", 0, 0⟩]⟩ : CpAbeSecretKey (ZMod 5)).d_j.map (fun v => v.str) = ["C"]) ∧
    decrypt (fun _ => some (Policy.orNode [Policy.att "A", Policy.att "B"]))
      (⟨0, [⟨"C", 0, 0⟩]⟩ : CpAbeSecretKey (ZMod 5))
      ⟨"p", 0, 0, [], ⟨0, []⟩⟩ = .ok none :=
  ⟨rfl, by decide, by decide,
    decrypt_rejects_unsatisfying_names (F := ZMod 5)
      (fun _ => some (Policy.orNode [Policy.att "A", Policy.att "B"]))
      (Policy.orNode [Policy.att "A", Policy.att "B"]) ⟨"p", 0, 0, [], ⟨0, []⟩⟩ rfl
      ["C"] (by decide) ⟨0, [⟨"C", 0, 0⟩]⟩ (by decide)⟩

end ClaimSoundness

section PruneLemmas

mutual

/-- On a well-formed policy, pruning never fails or panics, its verdict is
exactly boolean satisfaction, its selected names are satisfied leaf names
drawn from the attribute set (a non-empty sublist of the leaves when
satisfied), and the selection is empty when unsatisfied. -/
theorem required_attributes_wf (attr : List String) : (p : Policy) →
    wellFormed p = true →
    ∃ sel, required_attributes attr p = .ok (some (satisfies attr p, sel)) ∧
      (satisfies attr p = true → sel ≠ [] ∧ ∀ nm ∈ sel, nm ∈ attr) ∧
      sel.Sublist (leafNames p) ∧ (satisfies attr p = false → sel = [])
  | .att s, _ => by
      by_cases hm : s ∈ attr
      · refine ⟨[s], ?_, fun _ => ⟨by simp, ?_⟩, by simp [leafNames], by simp [satisfies, hm]⟩
        · simp [required_attributes, satisfies, hm]
        · intro nm hnm
          rw [List.mem_singleton.mp hnm]
          exact hm
      · refine ⟨[], ?_, ?_, List.nil_sublist _, fun _ => rfl⟩
        · simp [required_attributes, satisfies, hm]
        · simp [satisfies, hm]
  | .orNode cs, hwf => by
      rw [wellFormed, Bool.and_eq_true, decide_eq_true_eq] at hwf
      obtain ⟨hlen, hwl⟩ := hwf
      obtain ⟨⟨b, l⟩, hres, hfst, hsat, hunsat⟩ := orLoop_wf attr cs hwl
      simp only at hfst hsat hunsat
      subst hfst
      refine ⟨l, ?_, fun htrue => ?_, ?_, fun hfalse => hunsat hfalse⟩
      · simp only [required_attributes, if_pos hlen, hres, satisfies]
      · exact ⟨(hsat htrue).1, (hsat htrue).2.1⟩
      · by_cases hAny : satisfiesAny attr cs = true
        · exact (hsat hAny).2.2
        · rw [Bool.not_eq_true] at hAny
          rw [hunsat hAny]
          exact List.nil_sublist _
  | .andNode cs, hwf => by
      rw [wellFormed, Bool.and_eq_true, decide_eq_true_eq] at hwf
      obtain ⟨hlen, hwl⟩ := hwf
      obtain ⟨⟨b, l⟩, hres, hfst, hsat⟩ := andLoop_wf attr cs hwl true []
      simp only at hfst hsat
      rw [Bool.true_and] at hfst
      subst hfst
      refine ⟨if satisfiesAll attr cs = true then l else [], ?_, fun htrue => ?_, ?_,
        fun hfalse => ?_⟩
      · simp only [required_attributes, if_pos hlen, hres, satisfies]
      · have hAll : satisfiesAll attr cs = true := htrue
        obtain ⟨sel, hl, hsub, hmem, hne⟩ := hsat hAll
        rw [List.nil_append] at hl
        subst hl
        rw [if_pos hAll]
        exact ⟨hne (by rintro rfl; simp at hlen), hmem⟩
      · by_cases hAll : satisfiesAll attr cs = true
        · obtain ⟨sel, hl, hsub, hmem, hne⟩ := hsat hAll
          rw [List.nil_append] at hl
          subst hl
          rw [if_pos hAll]
          exact hsub
        · rw [if_neg hAll]
          exact List.nil_sublist _
      · have hAll : satisfiesAll attr cs = false := hfalse
        rw [if_neg (by simp [hAll])]
  | .attBad, hwf => by simp [wellFormed] at hwf
  | .other, hwf => by simp [wellFormed] at hwf

/-- The `OR` loop of pruning on well-formed children: total, verdict is
disjunction, selection properties as for `required_attributes_wf`. -/
theorem orLoop_wf (attr : List String) : (cs : List Policy) →
    wellFormedList cs = true →
    ∃ res, orLoop attr cs = .ok res ∧ res.1 = satisfiesAny attr cs ∧
      (res.1 = true → res.2 ≠ [] ∧ (∀ nm ∈ res.2, nm ∈ attr) ∧
        res.2.Sublist (leafNamesList cs)) ∧
      (res.1 = false → res.2 = [])
  | [], _ => ⟨(false, []), rfl, rfl, by simp, fun _ => rfl⟩
  | c :: rest, hwf => by
      rw [wellFormedList, Bool.and_eq_true] at hwf
      obtain ⟨hwc, hwrest⟩ := hwf
      obtain ⟨selc, hrac, hsatc, hsubc, hunsatc⟩ := required_attributes_wf attr c hwc
      by_cases hsc : satisfies attr c = true
      · refine ⟨(true, selc), ?_, ?_, fun _ => ?_, by simp⟩
        · simp [orLoop, hrac, hsc]
        · simp [satisfiesAny, hsc]
        · obtain ⟨hne, hmem⟩ := hsatc hsc
          exact ⟨hne, hmem, hsubc.trans (List.sublist_append_left _ _)⟩
      · rw [Bool.not_eq_true] at hsc
        obtain ⟨res, hrest, hfst, hsat, hunsat⟩ := orLoop_wf attr rest hwrest
        refine ⟨res, ?_, ?_, fun htrue => ?_, hunsat⟩
        · simp [orLoop, hrac, hsc, hrest]
        · simp [satisfiesAny, hsc, hfst]
        · obtain ⟨hne, hmem, hsub⟩ := hsat htrue
          exact ⟨hne, hmem, hsub.trans (List.sublist_append_right _ _)⟩

/-- The `AND` loop of pruning on well-formed children: total, verdict is the
running flag conjoined with all children's satisfaction, and on a positive
verdict the final list extends the accumulator by a non-empty selection of
satisfied leaf names. -/
theorem andLoop_wf (attr : List String) : (cs : List Policy) →
    wellFormedList cs = true → ∀ (m : Bool) (acc : List String),
    ∃ res, andLoop attr m acc cs = .ok res ∧
      res.1 = (m && satisfiesAll attr cs) ∧
      (res.1 = true → ∃ sel, res.2 = acc ++ sel ∧
        sel.Sublist (leafNamesList cs) ∧ (∀ nm ∈ sel, nm ∈ attr) ∧
        (cs ≠ [] → sel ≠ []))
  | [], _, m, acc =>
      ⟨(m, acc), rfl, by simp [satisfiesAll],
        fun _ => ⟨[], by simp, List.nil_sublist _, by simp, fun hne => absurd rfl hne⟩⟩
  | c :: rest, hwf, m, acc => by
      rw [wellFormedList, Bool.and_eq_true] at hwf
      obtain ⟨hwc, hwrest⟩ := hwf
      obtain ⟨selc, hrac, hsatc, hsubc, hunsatc⟩ := required_attributes_wf attr c hwc
      obtain ⟨res, hrest, hfst, hsat⟩ := andLoop_wf attr rest hwrest (m && satisfies attr c)
        (if m && satisfies attr c then acc ++ selc else acc)
      refine ⟨res, ?_, ?_, fun htrue => ?_⟩
      · simp only [andLoop, hrac]
        exact hrest
      · rw [hfst]
        simp [satisfiesAll, Bool.and_assoc]
      · obtain ⟨sel, hres2, hsub, hmem, hne⟩ := hsat htrue
        have hmc : (m && satisfies attr c) = true := by
          rw [hfst, Bool.and_eq_true] at htrue
          exact htrue.1
        have hsc : satisfies attr c = true := by
          rw [Bool.and_eq_true] at hmc
          exact hmc.2
        rw [if_pos hmc] at hres2
        refine ⟨selc ++ sel, by rw [hres2, List.append_assoc], hsubc.append hsub, ?_, ?_⟩
        · intro nm hnm
          rcases List.mem_append.mp hnm with h | h
          · exact (hsatc hsc).2 nm h
          · exact hmem nm h
        · intro _
          exact fun hcontra => (hsatc hsc).1 (List.append_eq_nil.mp hcontra).1

end

/-- Decomposition of a successful `OR` loop: the children split into a prefix
of unsatisfied children, the first satisfied child — whose selection is
returned — and an unexamined remainder. -/
theorem orLoop_first_match (attr : List String) : (cs : List Policy) →
    (sel : List String) → orLoop attr cs = .ok (true, sel) →
    ∃ pre c post, cs = pre ++ c :: post ∧
      (∀ c' ∈ pre, ∃ l, required_attributes attr c' = .ok (some (false, l))) ∧
      required_attributes attr c = .ok (some (true, sel))
  | [], sel, h => by simp [orLoop] at h
  | c :: rest, sel, h => by
      rw [orLoop] at h
      cases hrc : required_attributes attr c with
      | error e => rw [hrc] at h; cases h
      | ok o =>
          cases o with
          | none => rw [hrc] at h; cases h
          | some fl =>
              obtain ⟨found, l⟩ := fl
              rw [hrc] at h
              simp only [] at h
              by_cases hf : found = true
              · subst hf
                rw [if_pos rfl] at h
                have hls : l = sel := by simpa using h
                subst hls
                exact ⟨[], c, rest, by simp, by simp, hrc⟩
              · rw [Bool.not_eq_true] at hf
                subst hf
                rw [if_neg (by simp)] at h
                obtain ⟨pre, c', post, hcs, hpre, hc'⟩ :=
                  orLoop_first_match attr rest sel h
                refine ⟨c :: pre, c', post, by simp [hcs], ?_, hc'⟩
                intro d hd
                rcases List.mem_cons.mp hd with rfl | hd'
                · exact ⟨l, hrc⟩
                · exact hpre d hd'

/-- Membership in a well-formed child list gives a well-formed child. -/
theorem wellFormedList_mem (cs : List Policy) (c : Policy) (hc : c ∈ cs)
    (h : wellFormedList cs = true) : wellFormed c = true := by
  induction cs with
  | nil => cases hc
  | cons d rest ih =>
      rw [wellFormedList, Bool.and_eq_true] at h
      rcases List.mem_cons.mp hc with rfl | hd'
      · exact h.1
      · exact ih hd' h.2

/-- A single unsatisfied child makes the whole conjunction unsatisfied. -/
theorem satisfiesAll_false_of_mem (attr : List String) (cs : List Policy)
    (c : Policy) (hc : c ∈ cs) (hf : satisfies attr c = false) :
    satisfiesAll attr cs = false := by
  induction cs with
  | nil => cases hc
  | cons d rest ih =>
      rcases List.mem_cons.mp hc with h | h
      · subst h
        simp [satisfiesAll, hf]
      · simp [satisfiesAll, ih h]

end PruneLemmas

section ClaimPrune

/-- C9: on a well-formed policy reported satisfied by pruning, every selected
name belongs to the attribute set and the selection is non-empty; a satisfied
`OR` node returns the selection of its first satisfying child in tree order
(children before it are unsatisfied, children after it are not consulted);
and an `AND` node with any failing child reports unsatisfied with an empty
selection. -/
theorem prune_postcondition :
    (∀ (attr : List String) (p : Policy) (sel : List String), wellFormed p = true →
        required_attributes attr p = .ok (some (true, sel)) →
        sel ≠ [] ∧ ∀ nm ∈ sel, nm ∈ attr) ∧
    (∀ (attr : List String) (cs : List Policy) (sel : List String),
        wellFormed (Policy.orNode cs) = true →
        required_attributes attr (Policy.orNode cs) = .ok (some (true, sel)) →
        ∃ pre c post, cs = pre ++ c :: post ∧
          (∀ c' ∈ pre, ∃ l, required_attributes attr c' = .ok (some (false, l))) ∧
          required_attributes attr c = .ok (some (true, sel))) ∧
    (∀ (attr : List String) (cs : List Policy) (c : Policy) (l : List String),
        wellFormed (Policy.andNode cs) = true → c ∈ cs →
        required_attributes attr c = .ok (some (false, l)) →
        required_attributes attr (Policy.andNode cs) = .ok (some (false, []))) := by
  refine ⟨?_, ?_, ?_⟩
  · intro attr p sel hwf h
    obtain ⟨sel0, hra, hsat, hsub, hunsat⟩ := required_attributes_wf attr p hwf
    rw [hra] at h
    have hpair : satisfies attr p = true ∧ sel0 = sel := by simpa using h
    obtain ⟨hs, rfl⟩ := hpair
    exact hsat hs
  · intro attr cs sel hwf h
    have hwf' := hwf
    rw [wellFormed, Bool.and_eq_true, decide_eq_true_eq] at hwf'
    obtain ⟨hlen, hwl⟩ := hwf'
    rw [required_attributes, if_pos hlen] at h
    cases horl : orLoop attr cs with
    | error e => rw [horl] at h; cases h
    | ok r =>
        rw [horl] at h
        simp only [] at h
        have hr : r = (true, sel) := by simpa using h
        subst hr
        exact orLoop_first_match attr cs sel horl
  · intro attr cs c l hwf hc hcf
    have hwf' := hwf
    rw [wellFormed, Bool.and_eq_true, decide_eq_true_eq] at hwf'
    obtain ⟨hlen, hwl⟩ := hwf'
    have hwc : wellFormed c = true := wellFormedList_mem cs c hc hwl
    obtain ⟨selc, hrac, hsatc, hsubc, hunsatc⟩ := required_attributes_wf attr c hwc
    rw [hrac] at hcf
    have hcf' : satisfies attr c = false ∧ selc = l := by simpa using hcf
    have hAll : satisfiesAll attr cs = false :=
      satisfiesAll_false_of_mem attr cs c hc hcf'.1
    obtain ⟨sel0, hra, hsat, hsub, hunsat⟩ :=
      required_attributes_wf attr (Policy.andNode cs) hwf
    have hs : satisfies attr (Policy.andNode cs) = false := hAll
    rw [hra, hs, hunsat hs]

/-- Witness for C9 at a concrete input: pruning `OR [AND [A, B], AND [C, D]]`
with attributes `["C", "D"]` selects the second disjunct's leaves. -/
theorem prune_postcondition_w :
    wellFormed (Policy.orNode [Policy.andNode [Policy.att "A", Policy.att "B"],
      Policy.andNode [Policy.att "C", Policy.att "D"]]) = true ∧
    required_attributes ["C", "D"]
      (Policy.orNode [Policy.andNode [Policy.att "A", Policy.att "B"],
        Policy.andNode [Policy.att "C", Policy.att "D"]]) =
      .ok (some (true, ["C", "D"])) ∧
    (["C", "D"] ≠ ([] : List String) ∧ ∀ nm ∈ ["C", "D"], nm ∈ ["C", "D"]) :=
  ⟨by decide, by decide,
    prune_postcondition.1 ["C", "D"]
      (Policy.orNode [Policy.andNode [Policy.att "A", Policy.att "B"],
        Policy.andNode [Policy.att "C", Policy.att "D"]]) ["C", "D"]
      (by decide) (by decide)⟩

end ClaimPrune

section LagrangeLemmas

variable {F : Type} [Field F] [DecidableEq F]

theorem list_range_prod (f : Nat → F) (n : Nat) :
    ((List.range n).map f).prod = ∏ j in Finset.range n, f j := by
  induction n with
  | zero => simp
  | succ m ih =>
      rw [List.range_succ, List.map_append, List.prod_append,
        Finset.prod_range_succ, ih]
      simp

theorem list_range_sum (f : Nat → F) (n : Nat) :
    ((List.range n).map f).sum = ∑ j in Finset.range n, f j := by
  induction n with
  | zero => simp
  | succ m ih =>
      rw [List.range_succ, List.map_append, List.sum_append,
        Finset.sum_range_succ, ih]
      simp

theorem foldl_ite_mul (l : List F) (P : F → Prop) [DecidablePred P] (g : F → F) (c : F) :
    l.foldl (fun acc j => if P j then acc * g j else acc) c =
      c * (l.map (fun j => if P j then g j else 1)).prod := by
  induction l generalizing c with
  | nil => simp
  | cons x xs ih =>
      rw [List.foldl_cons, ih, List.map_cons, List.prod_cons]
      by_cases h : P x
      · rw [if_pos h, if_pos h]
        ring
      · rw [if_neg h, if_neg h]
        ring

theorem prod_ite_ne_erase (n i : Nat) (g : Nat → F) :
    (∏ j in Finset.range n, if i ≠ j then g j else 1) =
      ∏ j in (Finset.range n).erase i, g j := by
  rw [← Finset.prod_filter]
  congr 1
  ext j
  simp [Finset.mem_erase, and_comm, ne_comm]

/-- The coefficient the `AND` branch of `calc_coefficients` computes for child
`i` is exactly the standard Lagrange basis value at `0` over the full point
set `1, …, n`, provided the field does not collapse any of the points. -/
theorem recover_andPoints (n i : Nat) (hn : 1 ≤ n) (hi : i < n)
    (hinj : ∀ a b : Nat, a < n → b < n →
      ((a + 1 : Nat) : F) = ((b + 1 : Nat) : F) → a = b) :
    (recover_coefficients (andPoints n) : List F).getD i 0 = lagrangeBasisAtZero n i := by
  have hmax : max n 1 = n := by omega
  rw [recover_coefficients, andPoints, hmax, List.map_map, mapped_range_getD n i hi]
  simp only [Function.comp_apply]
  rw [foldl_ite_mul, one_mul, List.map_map]
  simp only [Function.comp_def]
  have hcongr : ((List.range n).map (fun j =>
      if ((i + 1 : Nat) : F) ≠ ((j + 1 : Nat) : F) then
        ((0 : F) - ((j + 1 : Nat) : F)) * (((i + 1 : Nat) : F) - ((j + 1 : Nat) : F))⁻¹
      else 1)) = (List.range n).map (fun j =>
      if i ≠ j then
        ((0 : F) - ((j + 1 : Nat) : F)) * (((i + 1 : Nat) : F) - ((j + 1 : Nat) : F))⁻¹
      else 1) := by
    apply List.map_congr_left
    intro j hj
    rw [List.mem_range] at hj
    by_cases hij : i = j
    · subst hij
      rw [if_neg (by simp), if_neg (by simp)]
    · rw [if_pos ?_, if_pos hij]
      intro hcast
      exact hij (hinj i j hi hj hcast)
  rw [hcongr, list_range_prod, prod_ite_ne_erase n i _]
  rfl

/-- Evaluating a polynomial of degree below `n` at `0` via the Lagrange
interpolation through the points `1, …, n`. -/
theorem lagrange_eval_zero (n : Nat) (f : Polynomial F)
    (hdeg : f.degree < ((n : Nat) : WithBot Nat))
    (hinj : Set.InjOn (fun j : Nat => ((j + 1 : Nat) : F)) (Finset.range n)) :
    f.eval 0 = ∑ i in Finset.range n,
      f.eval ((i + 1 : Nat) : F) * lagrangeBasisAtZero n i := by
  have hcard : (Finset.range n).card = n := Finset.card_range n
  have h := Lagrange.eq_interpolate (v := fun j : Nat => ((j + 1 : Nat) : F)) (f := f) hinj
    (by rw [hcard]; exact hdeg)
  conv_lhs => rw [h]
  rw [Lagrange.interpolate_apply, Polynomial.eval_finset_sum]
  apply Finset.sum_congr rfl
  intro i hi
  rw [Polynomial.eval_mul, Polynomial.eval_C, Lagrange.basis, Polynomial.eval_prod,
    lagrangeBasisAtZero]
  congr 1
  apply Finset.prod_congr rfl
  intro j hj
  rw [Lagrange.basisDivisor, Polynomial.eval_mul, Polynomial.eval_C, Polynomial.eval_sub,
    Polynomial.eval_X, Polynomial.eval_C]
  ring

/-- Injectivity of the shifted evaluation points, derived from the assumption
that no point in `1, …, n` vanishes in the field. -/
theorem cast_points_inj (n : Nat)
    (hchar : ∀ m : Nat, 0 < m → m ≤ n → ((m : Nat) : F) ≠ 0) :
    ∀ a b : Nat, a < n → b < n →
      ((a + 1 : Nat) : F) = ((b + 1 : Nat) : F) → a = b := by
  intro a b ha hb h
  by_contra hne
  rcases Nat.lt_or_ge a b with hab | hba
  · have heq : ((b + 1) - (a + 1) : Nat) = b - a := by omega
    have hz : (((b + 1) - (a + 1) : Nat) : F) = 0 := by
      rw [Nat.cast_sub (by omega), h, sub_self]
    rw [heq] at hz
    exact hchar (b - a) (by omega) (by omega) hz
  · have hba' : b < a := by omega
    have heq : ((a + 1) - (b + 1) : Nat) = a - b := by omega
    have hz : (((a + 1) - (b + 1) : Nat) : F) = 0 := by
      rw [Nat.cast_sub (by omega), h.symm, sub_self]
    rw [heq] at hz
    exact hchar (a - b) (by omega) (by omega) hz

/-- The central reconstruction identity for an `AND` node: combining the
evaluations of a sharing polynomial of degree below `n` at `1, …, n` with the
coefficients computed by `recover_coefficients` over those points recovers the
evaluation at `0`. -/
theorem and_node_share_sum (n : Nat) (hn : 1 ≤ n) (f : Polynomial F)
    (hdeg : f.degree < ((n : Nat) : WithBot Nat))
    (hchar : ∀ m : Nat, 0 < m → m ≤ n → ((m : Nat) : F) ≠ 0) :
    ∑ i in Finset.range n,
      (recover_coefficients (andPoints n) : List F).getD i 0 *
        f.eval ((i + 1 : Nat) : F) = f.eval 0 := by
  have hinj1 := cast_points_inj (F := F) n hchar
  have hinj : Set.InjOn (fun j : Nat => ((j + 1 : Nat) : F)) (Finset.range n) := by
    intro a ha b hb h
    rw [Finset.coe_range, Set.mem_Iio] at ha hb
    exact hinj1 a b ha hb h
  rw [lagrange_eval_zero n f hdeg hinj]
  apply Finset.sum_congr rfl
  intro i hi
  rw [Finset.mem_range] at hi
  rw [recover_andPoints n i hn hi hinj1]
  ring

theorem polynomial_at_zero (a : List F) : polynomial a 0 = a.getD 0 0 := by
  cases a with
  | nil => simp [polynomial_nil]
  | cons c cs =>
      rw [polynomial_cons]
      simp

theorem polynomial_singleton (x y : F) : polynomial [x] y = x := by
  rw [polynomial_cons, polynomial_nil]
  ring

theorem recover_singleton (x : F) : recover_coefficients [x] = [1] := by
  simp [recover_coefficients]

end LagrangeLemmas

section CoeffLemmas

variable {F : Type} [Field F] [DecidableEq F]

mutual

/-- On a well-formed policy, `calc_coefficients` succeeds and emits exactly
one entry per leaf, in depth-first order. -/
theorem calc_coefficients_wf (κ : F) : (p : Policy) → wellFormed p = true →
    ∃ l, calc_coefficients p κ = some l ∧ l.map Prod.fst = leafNames p
  | .att s, _ => ⟨[(s, κ)], rfl, rfl⟩
  | .andNode cs, hwf => by
      rw [wellFormed, Bool.and_eq_true, decide_eq_true_eq] at hwf
      obtain ⟨hlen, hwl⟩ := hwf
      have hlam : cs.length ≤
          (recover_coefficients (andPoints cs.length) : List F).length := by
        rw [recover_coefficients, andPoints, List.length_map, List.length_map,
          List.length_range]
        omega
      obtain ⟨l, hl, hn⟩ := calcCoeffChildren_wf κ _ cs hwl hlam
      exact ⟨l, hl, hn⟩
  | .orNode cs, hwf => by
      rw [wellFormed, Bool.and_eq_true, decide_eq_true_eq] at hwf
      obtain ⟨hlen, hwl⟩ := hwf
      have hlam : cs.length ≤ (List.replicate cs.length
          ((recover_coefficients ([1] : List F)).getD 0 0)).length := by
        simp
      obtain ⟨l, hl, hn⟩ := calcCoeffChildren_wf κ _ cs hwl hlam
      exact ⟨l, hl, hn⟩
  | .attBad, hwf => by simp [wellFormed] at hwf
  | .other, hwf => by simp [wellFormed] at hwf

/-- The child loop of `calc_coefficients` succeeds on well-formed children
when enough multipliers are available, emitting the children's leaf entries. -/
theorem calcCoeffChildren_wf (κ : F) (lams : List F) : (cs : List Policy) →
    wellFormedList cs = true → cs.length ≤ lams.length →
    ∃ l, calcCoeffChildren κ lams cs = some l ∧ l.map Prod.fst = leafNamesList cs
  | [], _, _ => ⟨[], rfl, rfl⟩
  | c :: rest, hwf, hlen => by
      rw [wellFormedList, Bool.and_eq_true] at hwf
      obtain ⟨hwc, hwrest⟩ := hwf
      cases lams with
      | nil => simp at hlen
      | cons lam lams' =>
          obtain ⟨r, hr, hrn⟩ := calc_coefficients_wf (κ * lam) c hwc
          obtain ⟨rs, hrs, hrsn⟩ :=
            calcCoeffChildren_wf κ lams' rest hwrest (by simpa using hlen)
          refine ⟨r ++ rs, ?_, by simp [leafNamesList, hrn, hrsn]⟩
          simp [calcCoeffChildren, hr, hrs]

end

/-- Determinism wrapper: a successful `calc_coefficients` run on a
well-formed policy emits the leaf names in order. -/
theorem calc_coefficients_names (κ : F) (p : Policy) (l : List (String × F))
    (hwf : wellFormed p = true) (h : calc_coefficients p κ = some l) :
    l.map Prod.fst = leafNames p := by
  obtain ⟨l', hl', hn⟩ := calc_coefficients_wf κ p hwf
  rw [h] at hl'
  obtain rfl := Option.some.inj hl'
  exact hn

/-- Determinism wrapper: a successful `gen_shares_json` run emits the leaf
names in order. -/
theorem gen_shares_json_names (secret : F) (rnd : List Nat → Nat → F)
    (path : List Nat) (p : Policy) (l : List (String × F))
    (h : gen_shares_json secret rnd path p = some l) :
    l.map Prod.fst = leafNames p := by
  obtain ⟨l', hl', hn⟩ := gen_shares_json_total secret rnd path p
    (gen_shares_json_good secret rnd path p l h)
  rw [h] at hl'
  obtain rfl := Option.some.inj hl'
  exact hn

/-- Block decomposition of the `calc_coefficients` child loop: the output is
the concatenation of per-child outputs, child `i` processed with the running
coefficient multiplied by the `i`-th available multiplier. -/
theorem calcCoeffChildren_blocks (κ : F) : (cs : List Policy) → (lams : List F) →
    (l : List (String × F)) → calcCoeffChildren κ lams cs = some l →
    ∃ ls : List (List (String × F)), ls.length = cs.length ∧ l = ls.flatten ∧
      ∀ i, i < cs.length →
        calc_coefficients (cs.getD i Policy.other) (κ * lams.getD i 0) =
          some (ls.getD i [])
  | [], lams, l, h => by
      refine ⟨[], rfl, ?_, fun i hi => absurd hi (by simp)⟩
      simpa [calcCoeffChildren] using h.symm
  | c :: rest, lams, l, h => by
      cases lams with
      | nil => simp [calcCoeffChildren] at h
      | cons lam lams' =>
          rw [calcCoeffChildren] at h
          cases hr : calc_coefficients c (κ * lam) with
          | none => rw [hr] at h; simp at h
          | some r =>
              rw [hr] at h
              simp only [] at h
              cases hrs : calcCoeffChildren κ lams' rest with
              | none => rw [hrs] at h; simp at h
              | some rs =>
                  rw [hrs] at h
                  simp only [Option.some.injEq] at h
                  obtain ⟨ls, hlen, hflat, hall⟩ :=
                    calcCoeffChildren_blocks κ rest lams' rs hrs
                  refine ⟨r :: ls, by simp [hlen], by simp [← h, hflat], ?_⟩
                  intro i hi
                  cases i with
                  | zero => simpa using hr
                  | succ j =>
                      simp only [List.getD_cons_succ]
                      exact hall j (by simpa using hi)

end CoeffLemmas

section ClaimCoefficients

variable {F : Type} [Field F] [DecidableEq F]

/-- C8: `calc_coefficients` emits one `(name, coefficient)` pair per leaf in
depth-first order; at an `AND` node with `n` children the running coefficient
passed to child `i` is multiplied by the standard Lagrange basis value at `0`
over the full point set `1, …, n` (provided the field does not collapse those
points); at an `OR` node every child inherits the running coefficient
multiplied by `1`. -/
theorem calc_coefficients_spec :
    (∀ (κ : F) (p : Policy), wellFormed p = true →
        ∃ l, calc_coefficients p κ = some l ∧ l.map Prod.fst = leafNames p) ∧
    (∀ n i : Nat, 1 ≤ n → i < n →
        (∀ m : Nat, 0 < m → m ≤ n → ((m : Nat) : F) ≠ 0) →
        (recover_coefficients (andPoints n) : List F).getD i 0 =
          lagrangeBasisAtZero n i) ∧
    (∀ (κ : F) (cs : List Policy) (l : List (String × F)),
        calc_coefficients (Policy.andNode cs) κ = some l →
        ∃ ls : List (List (String × F)), ls.length = cs.length ∧ l = ls.flatten ∧
          ∀ i, i < cs.length →
            calc_coefficients (cs.getD i Policy.other)
              (κ * (recover_coefficients (andPoints cs.length) : List F).getD i 0) =
              some (ls.getD i [])) ∧
    (∀ (κ : F) (cs : List Policy) (l : List (String × F)),
        calc_coefficients (Policy.orNode cs) κ = some l →
        ∃ ls : List (List (String × F)), ls.length = cs.length ∧ l = ls.flatten ∧
          ∀ i, i < cs.length →
            calc_coefficients (cs.getD i Policy.other) (κ * 1) =
              some (ls.getD i [])) := by
  refine ⟨calc_coefficients_wf,
    fun n i hn hi hchar => recover_andPoints n i hn hi (cast_points_inj n hchar), ?_, ?_⟩
  · intro κ cs l h
    exact calcCoeffChildren_blocks κ cs _ l h
  · intro κ cs l h
    obtain ⟨ls, hlen, hflat, hall⟩ := calcCoeffChildren_blocks κ cs _ l h
    refine ⟨ls, hlen, hflat, fun i hi => ?_⟩
    have hstep := hall i hi
    have hrep : (List.replicate cs.length
        ((recover_coefficients ([1] : List F)).getD 0 0)).getD i 0 = (1 : F) := by
      rw [List.getD_eq_getElem?_getD]
      simp [List.getElem?_replicate, hi, recover_singleton]
    rwa [hrep] at hstep

/-- Witness for C8 at a concrete input: the Lagrange multiplier of the first
child of a binary `AND` node over `ZMod 13`. -/
theorem calc_coefficients_spec_w :
    (1 ≤ 2 ∧ 0 < 2 ∧ ∀ m : Nat, 0 < m → m ≤ 2 → ((m : Nat) : ZMod 13) ≠ 0) ∧
    (recover_coefficients (andPoints 2) : List (ZMod 13)).getD 0 0 =
      lagrangeBasisAtZero 2 0 :=
  ⟨⟨by omega, by omega, fun m h1 h2 => by interval_cases m <;> decide⟩,
    (calc_coefficients_spec (F := ZMod 13)).2.1 2 0 (by omega) (by omega)
      (fun m h1 h2 => by interval_cases m <;> decide)⟩

end ClaimCoefficients

section ReconstructionLemmas

variable {F : Type} [Field F] [DecidableEq F]

/-- Block decomposition of a fully satisfied `AND` loop: every child is
satisfied and the selection is the accumulator followed by the concatenation
of the children's selections. -/
theorem andLoop_blocks (attr : List String) : (cs : List Policy) → (m : Bool) →
    (acc sel : List String) → andLoop attr m acc cs = .ok (true, sel) →
    m = true ∧ ∃ sels : List (List String),
      List.Forall₂ (fun c s =>
        required_attributes attr c = .ok (some (true, s))) cs sels ∧
      sel = acc ++ sels.flatten
  | [], m, acc, sel, h => by
      rw [andLoop] at h
      have h' : m = true ∧ acc = sel := by simpa using h
      refine ⟨h'.1, [], List.Forall₂.nil, ?_⟩
      rw [h'.2]
      simp
  | c :: rest, m, acc, sel, h => by
      rw [andLoop] at h
      cases hrc : required_attributes attr c with
      | error e => rw [hrc] at h; cases h
      | ok o =>
          cases o with
          | none => rw [hrc] at h; cases h
          | some fl =>
              obtain ⟨found, l⟩ := fl
              rw [hrc] at h
              simp only [] at h
              obtain ⟨hmf, sels, hfa, hsel⟩ := andLoop_blocks attr rest
                (m && found) (if m && found then acc ++ l else acc) sel h
              rw [Bool.and_eq_true] at hmf
              obtain ⟨hm, hf⟩ := hmf
              subst hm
              subst hf
              rw [if_pos (by simp)] at hsel
              refine ⟨rfl, l :: sels, List.Forall₂.cons hrc hfa, ?_⟩
              rw [hsel, List.flatten_cons, List.append_assoc]

/-- Sum of a `zipWith` against a block of consecutive indices, as a
`Finset.range` sum. -/
theorem zipWith_range_sum (g : F → Nat → F) (l : List F) : ∀ s : Nat,
    (List.zipWith (fun lam i => g lam i) l (List.range' s l.length)).sum =
      ∑ i in Finset.range l.length, g (l.getD i 0) (s + i) := by
  induction l with
  | nil => intro s; simp
  | cons x xs ih =>
      intro s
      rw [List.length_cons, List.range'_succ, List.zipWith_cons_cons, List.sum_cons,
        ih (s + 1), Finset.sum_range_succ']
      simp only [List.getD_cons_succ, List.getD_cons_zero, Nat.add_zero]
      rw [add_comm]
      congr 1
      apply Finset.sum_congr rfl
      intro i hi
      congr 1
      omega

/-- Positionally zipped coefficient and share lists carry the same name in
each pair. -/
theorem zip_fst_eq (cov shv : List (String × F))
    (h : cov.map Prod.fst = shv.map Prod.fst) :
    ∀ e ∈ cov.zip shv, e.1.1 = e.2.1 := by
  induction cov generalizing shv with
  | nil => intro e he; simp at he
  | cons c cs ih =>
      cases shv with
      | nil => intro e he; simp at he
      | cons d ds =>
          simp only [List.map_cons, List.cons.injEq] at h
          intro e he
          rcases List.mem_cons.mp (by simpa using he) with rfl | he'
          · exact h.1
          · exact ih ds h.2 e he'

mutual

/-- The central sharing/recovery induction: on a well-formed policy whose
pruning reports satisfied, the pruned leaves — paired positionally with the
coefficients and shares emitted for them — form a sublist of the zipped
emissions whose coefficient-times-share sum reconstructs the incoming
running-coefficient times the node secret. -/
theorem shares_reconstruct (attr : List String) (rnd : List Nat → Nat → F) :
    (p : Policy) → (path : List Nat) → (κ σ : F) → (sel : List String) →
    (shv cov : List (String × F)) →
    wellFormed p = true →
    (∀ m : Nat, 0 < m → m ≤ arityBound p → ((m : Nat) : F) ≠ 0) →
    required_attributes attr p = .ok (some (true, sel)) →
    gen_shares_json σ rnd path p = some shv →
    calc_coefficients p κ = some cov →
    ∃ zc : List ((String × F) × (String × F)),
      zc.Sublist (cov.zip shv) ∧ zc.map (fun e => e.1.1) = sel ∧
      (zc.map (fun e => e.1.2 * e.2.2)).sum = κ * σ
  | .att s, path, κ, σ, sel, shv, cov, hwf, hchar, hra, hgs, hcc => by
      have hsel : sel = [s] := by
        rw [required_attributes] at hra
        by_cases hm : attr.contains s = true
        · rw [if_pos hm] at hra
          simpa using hra.symm
        · rw [Bool.not_eq_true] at hm
          rw [if_neg (by rw [hm]; exact Bool.false_ne_true)] at hra
          simp at hra
      have hshv : shv = [(s, σ)] := by
        simpa [gen_shares_json] using hgs.symm
      have hcov : cov = [(s, κ)] := by
        simpa [calc_coefficients] using hcc.symm
      subst hsel
      subst hshv
      subst hcov
      exact ⟨[((s, κ), (s, σ))], by simp, by simp, by simp⟩
  | .andNode cs, path, κ, σ, sel, shv, cov, hwf, hchar, hra, hgs, hcc => by
      have hwf' := hwf
      rw [wellFormed, Bool.and_eq_true, decide_eq_true_eq] at hwf'
      obtain ⟨hlen2, hwl⟩ := hwf'
      rw [required_attributes, if_pos hlen2] at hra
      cases hal : andLoop attr true [] cs with
      | error e => rw [hal] at hra; cases hra
      | ok r =>
          rw [hal] at hra
          simp only [] at hra
          obtain ⟨b, l⟩ := r
          have hb : b = true := by
            by_contra hb
            rw [Bool.not_eq_true] at hb
            subst hb
            simp at hra
          subst hb
          have hsel : l = sel := by simpa using hra
          obtain ⟨-, sels, hfa, hflat⟩ := andLoop_blocks attr cs true [] l hal
          rw [List.nil_append] at hflat
          have hchL : ∀ m : Nat, 0 < m → m ≤ arityBoundList cs → ((m : Nat) : F) ≠ 0 :=
            fun m hm hle => hchar m hm (le_trans hle (le_max_right _ _))
          obtain ⟨zc, hsub, hnames, hsum⟩ := children_reconstruct attr rnd cs path 0
            (gen_shares σ cs.length cs.length (rnd path))
            (recover_coefficients (andPoints cs.length)) κ sels shv cov hwl hchL hfa hgs hcc
          refine ⟨zc, hsub, by rw [hnames, ← hflat]; exact hsel, ?_⟩
          rw [hsum]
          have hn1 : 1 ≤ cs.length := by omega
          have hgetsh : ∀ i : Nat, i < cs.length →
              (gen_shares σ cs.length cs.length (rnd path)).getD (i + 1) 0 =
              (toPoly ((List.range cs.length).map
                (fun j => if j = 0 then σ else rnd path j))).eval ((i + 1 : Nat) : F) := by
            intro i hi
            rw [gen_shares, if_pos (le_refl cs.length),
              mapped_range_getD (cs.length + 1) (i + 1) (by omega), toPoly_eval]
          have hlamlen : (recover_coefficients (andPoints cs.length) : List F).length =
              cs.length := by
            rw [recover_coefficients, andPoints, List.length_map, List.length_map,
              List.length_range]
            omega
          rw [show List.range' 0 cs.length =
            List.range' 0 (recover_coefficients (andPoints cs.length) : List F).length by
              rw [hlamlen]]
          rw [zipWith_range_sum, hlamlen]
          have hstep : ∀ i ∈ Finset.range cs.length,
              κ * (recover_coefficients (andPoints cs.length) : List F).getD i 0 *
                (gen_shares σ cs.length cs.length (rnd path)).getD (0 + i + 1) 0 =
              κ * ((recover_coefficients (andPoints cs.length) : List F).getD i 0 *
                (toPoly ((List.range cs.length).map
                  (fun j => if j = 0 then σ else rnd path j))).eval ((i + 1 : Nat) : F)) := by
            intro i hi
            rw [Finset.mem_range] at hi
            rw [show 0 + i + 1 = i + 1 by omega, hgetsh i hi]
            ring
          rw [Finset.sum_congr rfl hstep, ← Finset.mul_sum]
          have hdeg : (toPoly ((List.range cs.length).map
              (fun j => if j = 0 then σ else rnd path j))).degree <
              ((cs.length : Nat) : WithBot Nat) := by
            have hd := toPoly_degree_lt ((List.range cs.length).map
              (fun j => if j = 0 then σ else rnd path j))
            rwa [List.length_map, List.length_range] at hd
          have hchn : ∀ m : Nat, 0 < m → m ≤ cs.length → ((m : Nat) : F) ≠ 0 :=
            fun m hm hle => hchar m hm (le_trans hle (le_max_left _ _))
          rw [and_node_share_sum cs.length hn1 _ hdeg hchn, toPoly_eval, polynomial_at_zero,
            mapped_range_getD cs.length 0 (by omega)]
          simp
  | .orNode cs, path, κ, σ, sel, shv, cov, hwf, hchar, hra, hgs, hcc => by
      have hwf' := hwf
      rw [wellFormed, Bool.and_eq_true, decide_eq_true_eq] at hwf'
      obtain ⟨hlen2, hwl⟩ := hwf'
      rw [required_attributes, if_pos hlen2] at hra
      cases hol : orLoop attr cs with
      | error e => rw [hol] at hra; cases hra
      | ok r =>
          rw [hol] at hra
          simp only [] at hra
          have hr : r = (true, sel) := by simpa using hra
          subst hr
          have hchL : ∀ m : Nat, 0 < m → m ≤ arityBoundList cs → ((m : Nat) : F) ≠ 0 :=
            fun m hm hle => hchar m hm (le_trans hle (le_max_right _ _))
          have hsh : ∀ j : Nat, 0 ≤ j → j < 0 + cs.length →
              (gen_shares σ 1 cs.length (rnd path)).getD (j + 1) 0 = σ := by
            intro j _ hj
            rw [gen_shares, if_pos (by omega),
              mapped_range_getD (cs.length + 1) (j + 1) (by omega)]
            have hone : (List.range 1).map
                (fun i => if i = 0 then σ else rnd path i) = [σ] := by
              rw [show List.range 1 = [0] from rfl]
              simp
            rw [hone, polynomial_singleton]
          have hlam1 : ∀ lam ∈ List.replicate cs.length
              ((recover_coefficients ([1] : List F)).getD 0 0), lam = (1 : F) := by
            intro lam hl
            rw [List.eq_of_mem_replicate hl, recover_singleton]
            rfl
          exact or_children_reconstruct attr rnd cs path 0
            (gen_shares σ 1 cs.length (rnd path)) _ κ σ sel shv cov hwl hchL hol hgs hcc
            hsh hlam1
  | .attBad, path, κ, σ, sel, shv, cov, hwf, hchar, hra, hgs, hcc => by
      simp [wellFormed] at hwf
  | .other, path, κ, σ, sel, shv, cov, hwf, hchar, hra, hgs, hcc => by
      simp [wellFormed] at hwf

/-- List form of the induction for a fully satisfied `AND` child block. -/
theorem children_reconstruct (attr : List String) (rnd : List Nat → Nat → F) :
    (cs : List Policy) → (path : List Nat) → (i0 : Nat) → (shares : List F) →
    (lams : List F) → (κ : F) → (sels : List (List String)) →
    (shv cov : List (String × F)) →
    wellFormedList cs = true →
    (∀ m : Nat, 0 < m → m ≤ arityBoundList cs → ((m : Nat) : F) ≠ 0) →
    List.Forall₂ (fun c s =>
      required_attributes attr c = .ok (some (true, s))) cs sels →
    genSharesChildren rnd path i0 shares cs = some shv →
    calcCoeffChildren κ lams cs = some cov →
    ∃ zc : List ((String × F) × (String × F)),
      zc.Sublist (cov.zip shv) ∧ zc.map (fun e => e.1.1) = sels.flatten ∧
      (zc.map (fun e => e.1.2 * e.2.2)).sum =
        (List.zipWith (fun lam i => κ * lam * shares.getD (i + 1) 0) lams
          (List.range' i0 cs.length)).sum
  | [], path, i0, shares, lams, κ, sels, shv, cov, _, _, hfa, hgs, hcc => by
      cases hfa
      have hshv : shv = [] := by simpa [genSharesChildren] using hgs.symm
      have hcov : cov = [] := by simpa [calcCoeffChildren] using hcc.symm
      subst hshv
      subst hcov
      exact ⟨[], by simp, by simp, by simp⟩
  | c :: rest, path, i0, shares, lams, κ, sels, shv, cov, hwl, hch, hfa, hgs, hcc => by
      rw [wellFormedList, Bool.and_eq_true] at hwl
      obtain ⟨hwc, hwrest⟩ := hwl
      cases hfa
      rename_i s sels' hrac hfarest
      cases lams with
      | nil => simp [calcCoeffChildren] at hcc
      | cons lam lams' =>
          rw [calcCoeffChildren] at hcc
          cases hr : calc_coefficients c (κ * lam) with
          | none => rw [hr] at hcc; simp at hcc
          | some r =>
              rw [hr] at hcc
              simp only [] at hcc
              cases hrs : calcCoeffChildren κ lams' rest with
              | none => rw [hrs] at hcc; simp at hcc
              | some rs =>
                  rw [hrs] at hcc
                  simp only [Option.some.injEq] at hcc
                  rw [genSharesChildren] at hgs
                  cases hgc : gen_shares_json (shares.getD (i0 + 1) 0) rnd
                      (path ++ [i0]) c with
                  | none => rw [hgc] at hgs; simp at hgs
                  | some items =>
                      rw [hgc] at hgs
                      simp only [] at hgs
                      cases hgr : genSharesChildren rnd path (i0 + 1) shares rest with
                      | none => rw [hgr] at hgs; simp at hgs
                      | some more =>
                          rw [hgr] at hgs
                          simp only [Option.some.injEq] at hgs
                          have hrn := calc_coefficients_names (κ * lam) c r hwc hr
                          have hin := gen_shares_json_names _ rnd (path ++ [i0]) c items hgc
                          have hlen_ri : r.length = items.length := by
                            have h1 : r.length = (leafNames c).length := by
                              rw [← hrn, List.length_map]
                            have h2 : items.length = (leafNames c).length := by
                              rw [← hin, List.length_map]
                            omega
                          have hchc : ∀ m : Nat, 0 < m → m ≤ arityBound c →
                              ((m : Nat) : F) ≠ 0 :=
                            fun m hm hle => hch m hm (le_trans hle (le_max_left _ _))
                          have hch' : ∀ m : Nat, 0 < m → m ≤ arityBoundList rest →
                              ((m : Nat) : F) ≠ 0 :=
                            fun m hm hle => hch m hm (le_trans hle (le_max_right _ _))
                          obtain ⟨zc1, hzs1, hzn1, hzsum1⟩ := shares_reconstruct attr rnd c
                            (path ++ [i0]) (κ * lam) (shares.getD (i0 + 1) 0) s items r
                            hwc hchc hrac hgc hr
                          obtain ⟨zc2, hzs2, hzn2, hzsum2⟩ := children_reconstruct attr rnd
                            rest path (i0 + 1) shares lams' κ sels' more rs hwrest hch'
                            hfarest hgr hrs
                          refine ⟨zc1 ++ zc2, ?_, ?_, ?_⟩
                          · rw [← hcc, ← hgs, List.zip_append hlen_ri]
                            exact hzs1.append hzs2
                          · rw [List.map_append, hzn1, hzn2, List.flatten_cons]
                          · rw [List.map_append, List.sum_append, hzsum1, hzsum2,
                              List.length_cons, List.range'_succ, List.zipWith_cons_cons,
                              List.sum_cons, mul_assoc]

/-- List form of the induction for an `OR` child block: all children carry
the node secret as their share and multiplier `1`; the loop's first
satisfying child supplies the selection. -/
theorem or_children_reconstruct (attr : List String) (rnd : List Nat → Nat → F) :
    (cs : List Policy) → (path : List Nat) → (i0 : Nat) → (shares : List F) →
    (lams : List F) → (κ σ : F) → (sel : List String) →
    (shv cov : List (String × F)) →
    wellFormedList cs = true →
    (∀ m : Nat, 0 < m → m ≤ arityBoundList cs → ((m : Nat) : F) ≠ 0) →
    orLoop attr cs = .ok (true, sel) →
    genSharesChildren rnd path i0 shares cs = some shv →
    calcCoeffChildren κ lams cs = some cov →
    (∀ j : Nat, i0 ≤ j → j < i0 + cs.length → shares.getD (j + 1) 0 = σ) →
    (∀ lam ∈ lams, lam = (1 : F)) →
    ∃ zc : List ((String × F) × (String × F)),
      zc.Sublist (cov.zip shv) ∧ zc.map (fun e => e.1.1) = sel ∧
      (zc.map (fun e => e.1.2 * e.2.2)).sum = κ * σ
  | [], path, i0, shares, lams, κ, σ, sel, shv, cov, _, _, hol, _, _, _, _ => by
      rw [orLoop] at hol
      cases hol
  | c :: rest, path, i0, shares, lams, κ, σ, sel, shv, cov, hwl, hch, hol, hgs, hcc,
      hsh, hlam => by
      rw [wellFormedList, Bool.and_eq_true] at hwl
      obtain ⟨hwc, hwrest⟩ := hwl
      cases lams with
      | nil => simp [calcCoeffChildren] at hcc
      | cons lam lams' =>
          rw [calcCoeffChildren] at hcc
          cases hr : calc_coefficients c (κ * lam) with
          | none => rw [hr] at hcc; simp at hcc
          | some r =>
              rw [hr] at hcc
              simp only [] at hcc
              cases hrs : calcCoeffChildren κ lams' rest with
              | none => rw [hrs] at hcc; simp at hcc
              | some rs =>
                  rw [hrs] at hcc
                  simp only [Option.some.injEq] at hcc
                  rw [genSharesChildren] at hgs
                  cases hgc : gen_shares_json (shares.getD (i0 + 1) 0) rnd
                      (path ++ [i0]) c with
                  | none => rw [hgc] at hgs; simp at hgs
                  | some items =>
                      rw [hgc] at hgs
                      simp only [] at hgs
                      cases hgr : genSharesChildren rnd path (i0 + 1) shares rest with
                      | none => rw [hgr] at hgs; simp at hgs
                      | some more =>
                          rw [hgr] at hgs
                          simp only [Option.some.injEq] at hgs
                          rw [orLoop] at hol
                          cases hrc : required_attributes attr c with
                          | error e => rw [hrc] at hol; cases hol
                          | ok o =>
                            cases o with
                            | none => rw [hrc] at hol; cases hol
                            | some fl =>
                              obtain ⟨found, l⟩ := fl
                              rw [hrc] at hol
                              simp only [] at hol
                              have hrn := calc_coefficients_names (κ * lam) c r hwc hr
                              have hin := gen_shares_json_names _ rnd (path ++ [i0]) c
                                items hgc
                              have hlen_ri : r.length = items.length := by
                                have h1 : r.length = (leafNames c).length := by
                                  rw [← hrn, List.length_map]
                                have h2 : items.length = (leafNames c).length := by
                                  rw [← hin, List.length_map]
                                omega
                              by_cases hf : found = true
                              · subst hf
                                rw [if_pos rfl] at hol
                                have hls : l = sel := by simpa using hol
                                subst hls
                                have hchc : ∀ m : Nat, 0 < m → m ≤ arityBound c →
                                    ((m : Nat) : F) ≠ 0 :=
                                  fun m hm hle => hch m hm (le_trans hle (le_max_left _ _))
                                obtain ⟨zc, hzs, hzn, hzsum⟩ := shares_reconstruct attr rnd c
                                  (path ++ [i0]) (κ * lam) (shares.getD (i0 + 1) 0) l items r
                                  hwc hchc hrc hgc hr
                                refine ⟨zc, ?_, hzn, ?_⟩
                                · rw [← hcc, ← hgs, List.zip_append hlen_ri]
                                  exact hzs.trans (List.sublist_append_left _ _)
                                · rw [hzsum, hlam lam (by simp),
                                    hsh i0 (le_refl i0) (by simp only [List.length_cons]; omega),
                                    mul_one]
                              · rw [Bool.not_eq_true] at hf
                                subst hf
                                rw [if_neg (by simp)] at hol
                                have hsh' : ∀ j : Nat, i0 + 1 ≤ j →
                                    j < (i0 + 1) + rest.length → shares.getD (j + 1) 0 = σ := by
                                  intro j h1 h2
                                  refine hsh j (by omega) ?_
                                  simp only [List.length_cons]
                                  omega
                                have hlam' : ∀ lam' ∈ lams', lam' = (1 : F) :=
                                  fun lam' hl => hlam lam' (by simp [hl])
                                have hch' : ∀ m : Nat, 0 < m → m ≤ arityBoundList rest →
                                    ((m : Nat) : F) ≠ 0 :=
                                  fun m hm hle => hch m hm (le_trans hle (le_max_right _ _))
                                obtain ⟨zc, hzs, hzn, hzsum⟩ := or_children_reconstruct attr
                                  rnd rest path (i0 + 1) shares lams' κ σ sel more rs hwrest
                                  hch' hol hgr hrs hsh' hlam'
                                refine ⟨zc, ?_, hzn, hzsum⟩
                                rw [← hcc, ← hgs, List.zip_append hlen_ri]
                                exact hzs.trans (List.sublist_append_right _ _)

end

end ReconstructionLemmas

section ClaimRoundtrip

variable {F : Type} [Field F] [DecidableEq F]

/-- C3: for every well-formed policy, every attribute set on which pruning
reports satisfied, and every secret `s`, the pruned leaves — each paired with
the Lagrange coefficient and the share that `calc_coefficients` and
`gen_shares_json` emit for that same leaf (the two emissions zipped
positionally) — have coefficient-times-share sum equal to `s`, for every
choice of the sampled polynomial coefficients. -/
theorem sharing_recovery_roundtrip (attr : List String) (P : Policy) (s : F)
    (rnd : List Nat → Nat → F) (sel : List String) (shv cov : List (String × F))
    (hwf : wellFormed P = true)
    (hchar : ∀ m : Nat, 0 < m → m ≤ arityBound P → ((m : Nat) : F) ≠ 0)
    (hra : required_attributes attr P = .ok (some (true, sel)))
    (hgs : gen_shares_json s rnd [] P = some shv)
    (hcc : calc_coefficients P 1 = some cov) :
    ∃ zc : List ((String × F) × (String × F)),
      zc.Sublist (cov.zip shv) ∧ (∀ e ∈ zc, e.1.1 = e.2.1) ∧
      zc.map (fun e => e.1.1) = sel ∧
      (zc.map (fun e => e.1.2 * e.2.2)).sum = s := by
  obtain ⟨zc, hsub, hnames, hsum⟩ := shares_reconstruct attr rnd P [] 1 s sel shv cov
    hwf hchar hra hgs hcc
  refine ⟨zc, hsub, ?_, hnames, by rw [hsum, one_mul]⟩
  intro e he
  have halign : cov.map Prod.fst = shv.map Prod.fst := by
    rw [calc_coefficients_names 1 P cov hwf hcc, gen_shares_json_names s rnd [] P shv hgs]
  exact zip_fst_eq cov shv halign e (hsub.subset he)

/-- Witness for C3 at a concrete input over `ZMod 13`. -/
theorem sharing_recovery_roundtrip_w :
    wellFormed (Policy.orNode [Policy.att "A", Policy.att "B"]) = true ∧
    required_attributes ["A"] (Policy.orNode [Policy.att "A", Policy.att "B"]) =
      .ok (some (true, ["A"])) ∧
    gen_shares_json (3 : ZMod 13) (fun _ _ => 7) []
      (Policy.orNode [Policy.att "A", Policy.att "B"]) = some [("A", 3), ("B", 3)] ∧
    calc_coefficients (F := ZMod 13) (Policy.orNode [Policy.att "A", Policy.att "B"]) 1 =
      some [("A", 1), ("B", 1)] ∧
    ∃ zc : List ((String × ZMod 13) × (String × ZMod 13)),
      zc.Sublist (([("A", 1), ("B", 1)] : List (String × ZMod 13)).zip
        ([("A", 3), ("B", 3)] : List (String × ZMod 13))) ∧
      (∀ e ∈ zc, e.1.1 = e.2.1) ∧
      zc.map (fun e => e.1.1) = ["A"] ∧
      (zc.map (fun e => e.1.2 * e.2.2)).sum = 3 :=
  ⟨by decide, by decide, by decide, by decide,
    sharing_recovery_roundtrip ["A"] (Policy.orNode [Policy.att "A", Policy.att "B"])
      (3 : ZMod 13) (fun _ _ => 7) ["A"] [("A", 3), ("B", 3)] [("A", 1), ("B", 1)]
      (by decide)
      (fun m h1 h2 => by
        have h2' : m ≤ 2 :=
          (show arityBound (Policy.orNode [Policy.att "A", Policy.att "B"]) = 2
            from rfl) ▸ h2
        interval_cases m <;> decide)
      (by decide) (by decide) (by decide)⟩

end ClaimRoundtrip

section DecryptLemmas

variable {F : Type} [Field F] [DecidableEq F]

/-- Additive analogue of `foldl_ite_mul` for the conditional accumulation in
`decryptInner`. -/
theorem foldl_ite_add (l : List (String × F)) (q : String × F → Bool)
    (g : String × F → F) (c : F) :
    l.foldl (fun acc t => if q t then acc + g t else acc) c =
      c + ((l.filter q).map g).sum := by
  induction l generalizing c with
  | nil => simp
  | cons t ts ih =>
      rw [List.foldl_cons]
      by_cases h : q t = true
      · rw [if_pos h, ih, List.filter_cons_of_pos h, List.map_cons, List.sum_cons]
        ring
      · rw [if_neg h, ih, List.filter_cons_of_neg (by simpa using h)]

/-- In a list with pairwise distinct names, filtering by the name of a member
gives exactly that member. -/
theorem filter_name_unique (z : List (String × F)) (j : String)
    (hnd : (z.map Prod.fst).Nodup) (t0 : String × F) (ht0 : t0 ∈ z)
    (hname : t0.1 = j) : z.filter (fun t => t.1 == j) = [t0] := by
  induction z with
  | nil => cases ht0
  | cons t ts ih =>
      rw [List.map_cons, List.nodup_cons] at hnd
      obtain ⟨hhd, htl⟩ := hnd
      by_cases h : (t.1 == j) = true
      · have htj : t.1 = j := by simpa using h
        have ht0t : t0 = t := by
          rcases List.mem_cons.mp ht0 with rfl | hmem
          · rfl
          · exfalso
            apply hhd
            rw [htj, ← hname]
            exact List.mem_map_of_mem Prod.fst hmem
        subst ht0t
        rw [List.filter_cons_of_pos (p := fun t : String × F => t.1 == j) h]
        have hnone : ts.filter (fun t' => t'.1 == j) = [] := by
          apply List.filter_eq_nil_iff.mpr
          intro t' ht'
          intro hc
          apply hhd
          rw [htj]
          have : t'.1 = j := by simpa using hc
          rw [← this]
          exact List.mem_map_of_mem Prod.fst ht'
        rw [hnone]
      · have htj : t.1 ≠ j := by simpa using h
        have ht0ts : t0 ∈ ts := by
          rcases List.mem_cons.mp ht0 with rfl | hmem
          · exact absurd hname htj
          · exact hmem
        rw [List.filter_cons_of_neg (p := fun t : String × F => t.1 == j) (by simpa using h)]
        exact ih htl ht0ts

/-- In aligned name-distinct coefficient and share lists, looking either list
up by the name of a zipped member returns that member's component. -/
theorem find_zip_unique (cov shv : List (String × F))
    (halign : cov.map Prod.fst = shv.map Prod.fst)
    (hnd : (cov.map Prod.fst).Nodup) :
    ∀ e ∈ cov.zip shv,
      cov.find? (fun t => t.1 == e.1.1) = some e.1 ∧
      shv.find? (fun t => t.1 == e.1.1) = some e.2 := by
  induction cov generalizing shv with
  | nil => intro e he; simp at he
  | cons c cs ih =>
      cases shv with
      | nil => intro e he; simp at he
      | cons d ds =>
          simp only [List.map_cons, List.cons.injEq] at halign
          obtain ⟨hcd, htl⟩ := halign
          rw [List.map_cons, List.nodup_cons] at hnd
          obtain ⟨hhd, hndtl⟩ := hnd
          intro e he
          rcases List.mem_cons.mp (by simpa using he) with rfl | he'
          · constructor
            · rw [List.find?_cons_of_pos _ (by simp)]
            · rw [List.find?_cons_of_pos _ (by simp [← hcd])]
          · have hecs : e.1 ∈ cs := (List.of_mem_zip he').1
            have hne : c.1 ≠ e.1.1 := by
              intro hc
              apply hhd
              rw [hc]
              exact List.mem_map_of_mem Prod.fst hecs
            constructor
            · rw [List.find?_cons_of_neg _ (by simpa using hne)]
              exact (ih ds htl hndtl e he').1
            · rw [List.find?_cons_of_neg _ (by simpa using fun hc => hne (hcd ▸ hc))]
              exact (ih ds htl hndtl e he').2

/-- A member of a list is found by `enumFrom`-lookup on its name, paired with
some position. -/
theorem enumFrom_find_name (attrs : List String) (n : String) :
    ∀ k : Nat, n ∈ attrs →
    ∃ i, (attrs.enumFrom k).find? (fun p => p.2 == n) = some (i, n) := by
  induction attrs with
  | nil => intro k h; cases h
  | cons a as ih =>
      intro k h
      by_cases ha : a = n
      · subst ha
        exact ⟨k, by rw [List.enumFrom_cons, List.find?_cons_of_pos _ (by simp)]⟩
      · have hmem : n ∈ as := by
          rcases List.mem_cons.mp h with rfl | hm
          · exact absurd rfl ha
          · exact hm
        obtain ⟨i, hi⟩ := ih (k + 1) hmem
        exact ⟨i, by rw [List.enumFrom_cons,
          List.find?_cons_of_neg _ (by simpa using ha)]; exact hi⟩

/-- Evaluation of the outer `decrypt` loop when every pruned name resolves:
the accumulator is the sum of the per-name contributions. -/
theorem decryptAcc_eval (sk : CpAbeSecretKey F) (ct : CpAbeCiphertext F)
    (z : List (String × F)) (w : (String × F) × (String × F) → F) :
    (zc : List ((String × F) × (String × F))) →
    (∀ e ∈ zc, ∃ cj dj, ct.c_y.find? (fun x => x.str == e.1.1) = some cj ∧
      sk.d_j.find? (fun x => x.str == e.1.1) = some dj ∧
      decryptInner cj dj z e.1.1 = w e) →
    decryptAcc sk ct z (zc.map (fun e => e.1.1)) = .ok ((zc.map w).sum)
  | [], _ => rfl
  | e :: rest, h => by
      obtain ⟨cj, dj, hc, hd, hi⟩ := h e (by simp)
      rw [List.map_cons, decryptAcc, hc]
      simp only []
      rw [hd]
      simp only []
      rw [decryptAcc_eval sk ct z w rest (fun e' he' => h e' (by simp [he']))]
      simp only []
      rw [hi, List.map_cons, List.sum_cons]

end DecryptLemmas

section ClaimEndToEnd

variable {F : Type} [Field F] [DecidableEq F]

/-- C1 (leaf attribute names pairwise distinct required): for every key pair
produced by `setup`, every non-empty attribute list satisfying the
well-formed policy with pairwise-distinct leaf names, and every non-empty
payload, `decrypt` applied to the `keygen` key and the `encrypt` ciphertext
returns the payload, for every choice of the random scalars. -/
theorem bsw_end_to_end (parse : String → Option Policy) (hashG2 : F → String → F)
    (g gp beta alpha : F) (pk : CpAbePublicKey F) (msk : CpAbeMasterKey F)
    (hsetup : setup g gp beta alpha = some (pk, msk))
    (attrs : List String) (hA : attrs ≠ [])
    (polS : String) (P : Policy) (hparse : parse polS = some P)
    (hwf : wellFormed P = true) (hnd : (leafNames P).Nodup)
    (hsat : satisfies attrs P = true)
    (hchar : ∀ m : Nat, 0 < m → m ≤ arityBound P → ((m : Nat) : F) ≠ 0)
    (pt : List Nat) (hpt : pt ≠ [])
    (r : F) (rj : Nat → F) (s mx my : F) (rnd : List Nat → Nat → F)
    (sk : CpAbeSecretKey F) (ct : CpAbeCiphertext F)
    (hkg : keygen hashG2 pk msk attrs r rj = .ok (some sk))
    (henc : encrypt parse hashG2 pk polS pt s mx my rnd = .ok (some ct)) :
    decrypt parse sk ct = .ok (some pt) := by
  have hdjn : sk.d_j.map (fun v => v.str) = attrs :=
    keygen_names hashG2 pk msk attrs r rj sk hkg
  -- invert setup
  rw [setup] at hsetup
  cases hbi : frInverse (F := F) beta with
  | none => rw [hbi] at hsetup; cases hsetup
  | some bi =>
      rw [hbi] at hsetup
      simp only [Option.some.injEq, Prod.mk.injEq] at hsetup
      obtain ⟨hpk, hmsk⟩ := hsetup
      have hbeta : beta ≠ 0 := by
        intro h0
        rw [frInverse, if_pos h0] at hbi
        cases hbi
      have hbival : bi = beta⁻¹ := by
        rw [frInverse, if_neg hbeta] at hbi
        exact (Option.some.inj hbi).symm
      subst hbival
      subst hpk
      subst hmsk
      -- invert keygen
      have hAe : attrs.isEmpty = false := by
        cases attrs with
        | nil => exact absurd rfl hA
        | cons a as => rfl
      rw [keygen] at hkg
      rw [if_neg (by rw [hAe]; exact Bool.false_ne_true)] at hkg
      have hfi : frInverse (F := F) beta = some beta⁻¹ := by
        rw [frInverse, if_neg hbeta]
      simp only [hfi] at hkg
      simp only [Except.ok.injEq, Option.some.injEq] at hkg
      have hdj : sk.d_j = attrs.enum.map (fun p =>
          ({ str := p.2, g1 := g * rj p.1,
             g2 := gp * r + hashG2 gp p.2 * rj p.1 } : CpAbeAttribute F)) := by
        rw [← hkg]
      have hskd : sk.d = (gp * alpha + gp * r) * beta⁻¹ := by
        rw [← hkg]
      -- invert encrypt
      rw [encrypt] at henc
      by_cases hpe : (pt.isEmpty || polS.isEmpty) = true
      · rw [if_pos hpe] at henc; cases henc
      · rw [if_neg hpe] at henc
        cases hgss : gen_shares_str parse s polS rnd with
        | none => rw [hgss] at henc; cases henc
        | some shv =>
            rw [hgss] at henc
            simp only [encrypt_symmetric, Option.some.injEq, Except.ok.injEq] at henc
            have hgsj : gen_shares_json s rnd [] P = some shv := by
              rw [gen_shares_str, hparse] at hgss
              exact hgss
            have hctpol : ct.policy = polS := by rw [← henc]
            have hctc : ct.c = g * beta * s := by rw [← henc]
            have hctcp : ct.c_p = g * (gp * alpha) * s + mx * my := by rw [← henc]
            have hctcy : ct.c_y = shv.map (fun jv =>
                ({ str := jv.1, g1 := g * jv.2,
                   g2 := hashG2 gp jv.1 * jv.2 } : CpAbeAttribute F)) := by
              rw [← henc]
            have hctct : ct.ct = ⟨mx * my, pt⟩ := by rw [← henc]
            -- pruning, coefficients, reconstruction
            obtain ⟨sel, hra0, hsat', hselsub, -⟩ := required_attributes_wf attrs P hwf
            rw [hsat] at hra0
            obtain ⟨hselne, hselmem⟩ := hsat' hsat
            obtain ⟨cov, hcc, -⟩ := calc_coefficients_wf (1 : F) P hwf
            obtain ⟨zc, hzsub, hzn, hzsum⟩ := shares_reconstruct attrs rnd P [] 1 s sel
              shv cov hwf hchar hra0 hgsj hcc
            have hcovn := calc_coefficients_names (1 : F) P cov hwf hcc
            have hshvn := gen_shares_json_names s rnd [] P shv hgsj
            have halign : cov.map Prod.fst = shv.map Prod.fst := by rw [hcovn, hshvn]
            have hcovnd : (cov.map Prod.fst).Nodup := by rw [hcovn]; exact hnd
            -- per-name resolution inside the decrypt loop
            have hperE : ∀ e ∈ zc, ∃ cj dj,
                ct.c_y.find? (fun x => x.str == e.1.1) = some cj ∧
                sk.d_j.find? (fun x => x.str == e.1.1) = some dj ∧
                decryptInner cj dj cov e.1.1 = g * gp * r * (e.1.2 * e.2.2) := by
              intro e he
              have hezip := hzsub.subset he
              have hfind := find_zip_unique cov shv halign hcovnd e hezip
              have hmemsel : e.1.1 ∈ sel := by
                rw [← hzn]
                exact List.mem_map_of_mem _ he
              have hmemattr : e.1.1 ∈ attrs := hselmem _ hmemsel
              obtain ⟨i, hienum⟩ := enumFrom_find_name attrs e.1.1 0 hmemattr
              have halignE := zip_fst_eq cov shv halign e hezip
              have hcy : ct.c_y.find? (fun x => x.str == e.1.1) =
                  some ⟨e.2.1, g * e.2.2, hashG2 gp e.2.1 * e.2.2⟩ := by
                rw [hctcy, List.find?_map]
                have hcomp : ((fun x : CpAbeAttribute F => x.str == e.1.1) ∘
                    (fun jv : String × F =>
                      ({ str := jv.1, g1 := g * jv.2,
                         g2 := hashG2 gp jv.1 * jv.2 } : CpAbeAttribute F))) =
                    (fun t : String × F => t.1 == e.1.1) := rfl
                rw [hcomp, hfind.2]
                rfl
              have hdj2 : sk.d_j.find? (fun x => x.str == e.1.1) =
                  some ⟨e.1.1, g * rj i, gp * r + hashG2 gp e.1.1 * rj i⟩ := by
                rw [hdj, List.find?_map]
                have hcomp : ((fun x : CpAbeAttribute F => x.str == e.1.1) ∘
                    (fun p : Nat × String =>
                      ({ str := p.2, g1 := g * rj p.1,
                         g2 := gp * r + hashG2 gp p.2 * rj p.1 } : CpAbeAttribute F))) =
                    (fun p : Nat × String => p.2 == e.1.1) := rfl
                rw [hcomp]
                rw [show attrs.enum = attrs.enumFrom 0 from rfl, hienum]
                rfl
              refine ⟨_, _, hcy, hdj2, ?_⟩
              rw [decryptInner, foldl_ite_add cov _ _ 0,
                filter_name_unique cov e.1.1 hcovnd e.1 (List.of_mem_zip hezip).1 rfl]
              simp only [List.map_cons, List.map_nil, List.sum_cons, List.sum_nil]
              rw [← halignE]
              ring
            have hacc : decryptAcc sk ct cov sel =
                .ok ((zc.map (fun e => g * gp * r * (e.1.2 * e.2.2))).sum) := by
              rw [← hzn]
              exact decryptAcc_eval sk ct cov _ zc hperE
            have haccval : ((zc.map (fun e => g * gp * r * (e.1.2 * e.2.2))).sum) =
                g * gp * r * s := by
              rw [List.sum_map_mul_left, hzsum]
              ring
            have htrav : traverse_str parse (sk.d_j.map (fun v => v.str)) ct.policy
                = true := by
              rw [hdjn, hctpol, traverse_str, hparse]
              exact hsat
            have hcps : calc_pruned_str parse (sk.d_j.map (fun v => v.str)) ct.policy =
                .ok (some (true, sel)) := by
              rw [hdjn, hctpol, calc_pruned_str, hparse]
              exact hra0
            have hccs : calc_coefficients_str parse ct.policy = some cov := by
              rw [hctpol, calc_coefficients_str, hparse]
              exact hcc
            unfold decrypt
            simp only [htrav, hcps, hccs, hacc, haccval]
            simp only [Bool.true_eq_false, if_neg, ite_false]
            rw [hctcp, hctc, hskd, hctct]
            have hmsg : g * (gp * alpha) * s + mx * my +
                -(g * beta * s * ((gp * alpha + gp * r) * beta⁻¹) + -(g * gp * r * s)) =
                mx * my := by
              field_simp
              ring
            rw [hmsg, decrypt_symmetric]
            rw [if_pos rfl]

/-- C1 counterexample: all the claim's premises hold for the well-formed
policy `OR [ATT "A", ATT "A"]` — whose two leaves carry the same attribute
name — the satisfying key `["A"]`, and a non-empty payload, yet `decrypt`
returns `None` instead of the payload: the name-keyed inner loop of `decrypt`
multiplies the coefficients of both like-named leaves against the same
ciphertext component, so the session element is reconstructed incorrectly and
the envelope rejects. -/
theorem bsw_end_to_end_cx :
    setup (1 : ZMod 13) 1 1 1 = some (⟨1, 1, 1, 1, 1⟩, ⟨1, 1⟩) ∧
    wellFormed (Policy.orNode [Policy.att "A", Policy.att "A"]) = true ∧
    satisfies ["A"] (Policy.orNode [Policy.att "A", Policy.att "A"]) = true ∧
    (["A"] : List String) ≠ [] ∧ ([7] : List Nat) ≠ [] ∧
    (∀ m : Nat, 0 < m →
      m ≤ arityBound (Policy.orNode [Policy.att "A", Policy.att "A"]) →
      ((m : Nat) : ZMod 13) ≠ 0) ∧
    keygen (fun _ _ => (1 : ZMod 13)) ⟨1, 1, 1, 1, 1⟩ ⟨1, 1⟩ ["A"] 1 (fun _ => 1) =
      .ok (some ⟨2, [⟨"A", 1, 2⟩]⟩) ∧
    encrypt (fun _ => some (Policy.orNode [Policy.att "A", Policy.att "A"]))
      (fun _ _ => (1 : ZMod 13)) ⟨1, 1, 1, 1, 1⟩ "p" [7] 1 2 3 (fun _ _ => 1) =
      .ok (some ⟨"p", 1, 7, [⟨"A", 1, 1⟩, ⟨"A", 1, 1⟩], ⟨6, [7]⟩⟩) ∧
    ¬ (leafNames (Policy.orNode [Policy.att "A", Policy.att "A"])).Nodup ∧
    decrypt (fun _ => some (Policy.orNode [Policy.att "A", Policy.att "A"]))
      (⟨2, [⟨"A", 1, 2⟩]⟩ : CpAbeSecretKey (ZMod 13))
      ⟨"p", 1, 7, [⟨"A", 1, 1⟩, ⟨"A", 1, 1⟩], ⟨6, [7]⟩⟩ = .ok none := by
  refine ⟨?_, by decide, by decide, by decide, by decide, ?_, ?_, by decide,
    by decide, by decide⟩
  · simp [setup, frInverse]
  · intro m h1 h2
    have h2' : m ≤ 2 :=
      (show arityBound (Policy.orNode [Policy.att "A", Policy.att "A"]) = 2
        from rfl) ▸ h2
    interval_cases m <;> decide
  · simp [keygen, frInverse, List.enum]
    norm_num

/-- Witness for C1's amended statement: a full concrete run over `ZMod 13`
with the duplicate-free policy `OR [ATT "A", ATT "B"]`. -/
theorem bsw_end_to_end_w :
    keygen (fun _ _ => (1 : ZMod 13)) ⟨1, 1, 1, 1, 1⟩ ⟨1, 1⟩ ["A"] 1 (fun _ => 1) =
      .ok (some ⟨2, [⟨"A", 1, 2⟩]⟩) ∧
    encrypt (fun _ => some (Policy.orNode [Policy.att "A", Policy.att "B"]))
      (fun _ _ => (1 : ZMod 13)) ⟨1, 1, 1, 1, 1⟩ "p" [7] 1 2 3 (fun _ _ => 1) =
      .ok (some ⟨"p", 1, 7, [⟨"A", 1, 1⟩, ⟨"B", 1, 1⟩], ⟨6, [7]⟩⟩) ∧
    decrypt (fun _ => some (Policy.orNode [Policy.att "A", Policy.att "B"]))
      (⟨2, [⟨"A", 1, 2⟩]⟩ : CpAbeSecretKey (ZMod 13))
      ⟨"p", 1, 7, [⟨"A", 1, 1⟩, ⟨"B", 1, 1⟩], ⟨6, [7]⟩⟩ = .ok (some [7]) := by
  have hkg : keygen (fun _ _ => (1 : ZMod 13)) ⟨1, 1, 1, 1, 1⟩ ⟨1, 1⟩ ["A"] 1
      (fun _ => 1) = .ok (some ⟨2, [⟨"A", 1, 2⟩]⟩) := by
    simp [keygen, frInverse, List.enum]
    norm_num
  have henc : encrypt (fun _ => some (Policy.orNode [Policy.att "A", Policy.att "B"]))
      (fun _ _ => (1 : ZMod 13)) ⟨1, 1, 1, 1, 1⟩ "p" [7] 1 2 3 (fun _ _ => 1) =
      .ok (some ⟨"p", 1, 7, [⟨"A", 1, 1⟩, ⟨"B", 1, 1⟩], ⟨6, [7]⟩⟩) := by
    decide
  have hst : setup (1 : ZMod 13) 1 1 1 = some (⟨1, 1, 1, 1, 1⟩, ⟨1, 1⟩) := by
    simp [setup, frInverse]
  refine ⟨hkg, henc, ?_⟩
  exact bsw_end_to_end (fun _ => some (Policy.orNode [Policy.att "A", Policy.att "B"]))
    (fun _ _ => (1 : ZMod 13)) 1 1 1 1 ⟨1, 1, 1, 1, 1⟩ ⟨1, 1⟩ hst ["A"] (by decide)
    "p" (Policy.orNode [Policy.att "A", Policy.att "B"]) rfl (by decide) (by decide)
    (by decide)
    (fun m h1 h2 => by
      have h2' : m ≤ 2 :=
        (show arityBound (Policy.orNode [Policy.att "A", Policy.att "B"]) = 2
          from rfl) ▸ h2
      interval_cases m <;> decide)
    [7] (by decide) 1 (fun _ => 1) 1 2 3 (fun _ _ => 1) _ _ hkg henc

end ClaimEndToEnd
